import Mathlib

/-!
Verification of the audio-reader backend's segmentation and chunking core.

We shallowly embed the TypeScript sources
`src/services/tts.ts`, `src/services/parser/pdf.parser.ts` and
`src/utils/ttsEstimate.ts` over `List Char` (a JS string is a sequence of
UTF-16 code units; every character appearing in the sources and in our
inputs is a BMP scalar, so `List Char` is a faithful model) and prove the
specification's claims about them.
-/

/-- A JavaScript string, modelled as its list of characters. -/
abbrev JsStr := List Char

/-- Convert a Lean string literal to the `JsStr` model. -/
def jstr (s : String) : JsStr := s.data

/-- JavaScript whitespace (the `\s` class, also used by `String.prototype.trim`):
space, tab, LF, VT, FF, CR, NBSP, and the Unicode space separators and BOM. -/
def isJsWs (c : Char) : Bool :=
  c = ' ' ∨ c = '\t' ∨ c = '\n' ∨ c.toNat = 0xb ∨ c.toNat = 0xc ∨ c = '\r' ∨
  c.toNat = 0xa0 ∨ c.toNat = 0x1680 ∨ (0x2000 ≤ c.toNat ∧ c.toNat ≤ 0x200a) ∨
  c.toNat = 0x2028 ∨ c.toNat = 0x2029 ∨ c.toNat = 0x202f ∨ c.toNat = 0x205f ∨
  c.toNat = 0x3000 ∨ c.toNat = 0xfeff

/-- The JS regex `\d` class. -/
def isDigitCh (c : Char) : Bool := '0' ≤ c ∧ c ≤ '9'

/-- JS line terminators: the characters NOT matched by `.` without the `s` flag. -/
def isLineTerm (c : Char) : Bool :=
  c = '\n' ∨ c = '\r' ∨ c.toNat = 0x2028 ∨ c.toNat = 0x2029

/-- `String.prototype.toLowerCase`, restricted to the character ranges the
parser's heading checks can meet (ASCII letters and the Spanish accented
uppercase letters); all other characters are fixed, as in Unicode for the
unaccented Latin range the repository processes. -/
def jsToLower (c : Char) : Char :=
  if 'A' ≤ c ∧ c ≤ 'Z' then Char.ofNat (c.toNat + 32)
  else if c = 'Á' then 'á'
  else if c = 'É' then 'é'
  else if c = 'Í' then 'í'
  else if c = 'Ó' then 'ó'
  else if c = 'Ú' then 'ú'
  else if c = 'Ü' then 'ü'
  else if c = 'Ñ' then 'ñ'
  else c

/-- `dropWhile` of leading JS whitespace: the left half of `trim`. -/
def trimLeft (l : JsStr) : JsStr := l.dropWhile isJsWs

/-- Remove trailing JS whitespace: the right half of `trim`. -/
def trimRight (l : JsStr) : JsStr := (trimLeft l.reverse).reverse

/-- `String.prototype.trim`. -/
def trim (l : JsStr) : JsStr := trimRight (trimLeft l)

/-- `replace(/\r\n/g, "\n")`. -/
def replaceCrLf : JsStr → JsStr
  | '\r' :: '\n' :: t => '\n' :: replaceCrLf t
  | c :: t => c :: replaceCrLf t
  | [] => []

/-- The scanning loop of `replace` of every maximal run of at least `k`
consecutive `sep` characters by `rep`.  `run` carries the (reversed)
pending separator run whose end has not yet been seen; when the run ends
(at a non-separator character or at the end of input) it is replaced by
`rep` if it reached length `k`, and kept otherwise. -/
def replGo (sep : Char → Bool) (k : Nat) (rep : JsStr) (run : JsStr) : JsStr → JsStr
  | [] => if run = [] then [] else if k ≤ run.length then rep else run.reverse
  | c :: t =>
    if sep c then replGo sep k rep (c :: run) t
    else
      (if run = [] then [] else if k ≤ run.length then rep else run.reverse) ++
        c :: replGo sep k rep [] t

/-- `replace` of every maximal run of at least `k` consecutive `sep`
characters by `rep`; shorter runs are left in place.  With `sep = '\n'`,
`k = 3`, `rep = "\n\n"` this is `replace(/\n{3,}/g, "\n\n")`; with
`sep = \s`, `k = 1`, `rep = " "` it is `replace(/\s+/g, " ")`.  The
greedy quantifier always takes a whole maximal run, since nothing
constrains what follows the match. -/
def replaceRuns (sep : Char → Bool) (k : Nat) (rep : JsStr) (l : JsStr) : JsStr :=
  replGo sep k rep [] l

/-- The scanning loop of `split` on runs: `run` carries the (reversed)
pending separator run.  When the run ends, a run of length at least `k`
is a split point (discarded), a shorter run stays inside the current
piece. -/
def chopGo (sep : Char → Bool) (k : Nat) (run : JsStr) : JsStr → List JsStr
  | [] => if run = [] then [[]] else if k ≤ run.length then [[], []] else [run.reverse]
  | c :: t =>
    if sep c then chopGo sep k (c :: run) t
    else
      if run = [] then (chopGo sep k [] t).modifyHead (c :: ·)
      else if k ≤ run.length then [] :: (chopGo sep k [] t).modifyHead (c :: ·)
      else ((chopGo sep k [] t).modifyHead (c :: ·)).modifyHead (run.reverse ++ ·)

/-- `String.prototype.split` on maximal runs of at least `k` `sep`
characters (the separator is discarded; empty pieces at the ends appear,
exactly as in JS).  With `sep = '\n'`, `k = 2` this is `split(/\n{2,}/g)`;
with `sep = \s`, `k = 1` it is `split(/\s+/g)`. -/
def chopRuns (sep : Char → Bool) (k : Nat) (l : JsStr) : List JsStr :=
  chopGo sep k [] l

/-- Sentence-ending punctuation: the lookbehind class `[.!?¿¡…]` of
`split(/(?<=[.!?¿¡…])\s+(?=[A-ZÁÉÍÓÚÜÑ¿¡])/g)`. -/
def isSentEnd (c : Char) : Bool :=
  c = '.' ∨ c = '!' ∨ c = '?' ∨ c = '¿' ∨ c = '¡' ∨ c = '…'

/-- Sentence-start characters: the lookahead class `[A-ZÁÉÍÓÚÜÑ¿¡]`. -/
def isSentStart (c : Char) : Bool :=
  ('A' ≤ c ∧ c ≤ 'Z') ∨ c = 'Á' ∨ c = 'É' ∨ c = 'Í' ∨ c = 'Ó' ∨ c = 'Ú' ∨
  c = 'Ü' ∨ c = 'Ñ' ∨ c = '¿' ∨ c = '¡'

/-- The scanning loop of
`split(/(?<=[.!?¿¡…])\s+(?=[A-ZÁÉÍÓÚÜÑ¿¡])/g)`.  A separator is a maximal
whitespace run whose preceding character is sentence-ending punctuation
(`endBefore` records that lookbehind) and whose following character is an
upper-case/opening-punctuation character (the lookahead, checked at `c`
when the pending `run` ends); the separator is discarded.  A whitespace
run can only match as a whole: a lookbehind inside the run sees
whitespace, which is not in the ender class, and a lookahead inside the
run sees whitespace, which is not in the start class, so the regex engine
has no shorter match to backtrack to; a run at the end of input has no
lookahead character and never matches. -/
def sentGo (endBefore : Bool) (run : JsStr) : JsStr → List JsStr
  | [] => if run = [] then [[]] else [run.reverse]
  | c :: t =>
    if isJsWs c then sentGo endBefore (c :: run) t
    else
      if run = [] then (sentGo (isSentEnd c) [] t).modifyHead (c :: ·)
      else if endBefore ∧ isSentStart c then
        [] :: (sentGo (isSentEnd c) [] t).modifyHead (c :: ·)
      else
        ((sentGo (isSentEnd c) [] t).modifyHead (c :: ·)).modifyHead (run.reverse ++ ·)

/-- `split(/(?<=[.!?¿¡…])\s+(?=[A-ZÁÉÍÓÚÜÑ¿¡])/g)` on a whole string:
scanning starts with no lookbehind and an empty pending run. -/
def sentSplit (l : JsStr) : List JsStr := sentGo false [] l

/-! ## `src/services/tts.ts`: the chunk splitter -/

/-- The cleaning pass at the top of `splitTextIntoChunks`:
`(text || "").replace(/\r\n/g, "\n").replace(/\n{3,}/g, "\n\n").trim()`. -/
def cleanText (text : JsStr) : JsStr :=
  trim (replaceRuns (fun c => c = '\n') 3 (jstr "\n\n") (replaceCrLf text))

/-- The slicing loop of `hardSplit`: `acc` is the (reversed) current
slice, `cnt` its remaining capacity.  When the capacity is exhausted the
slice is closed (with `trim`) and a new one starts. -/
def hardGo (m : Nat) : Nat → JsStr → JsStr → List JsStr
  | _, acc, [] => if acc = [] then [] else [trim acc.reverse]
  | 0, acc, c :: t => trim acc.reverse :: hardGo m (m - 1) [c] t
  | cnt + 1, acc, c :: t => hardGo m cnt (c :: acc) t

/-- `hardSplit`'s successive `slice(i, i + maxChars).trim()` pieces.  The
source's `while (i < text.length)` with `i += maxChars` diverges when
`maxChars = 0`; the source only ever calls it with `maxChars ≥ 4`, and we
return `[]` on that unreachable argument to stay total. -/
def hardSlices (maxChars : Nat) (text : JsStr) : List JsStr :=
  match text with
  | [] => []
  | c :: t => if maxChars = 0 then [] else hardGo maxChars (maxChars - 1) [c] t

/-- `hardSplit(text, maxChars)`: slice at exact `maxChars` boundaries,
trim each slice, drop empty slices (`out.filter(Boolean)`). -/
def hardSplit (text : JsStr) (maxChars : Nat) : List JsStr :=
  (hardSlices maxChars text).filter (fun p => !p.isEmpty)

/-- The sentence-packing loop of `splitLargePieceBySentences`: greedy
accumulation of `sentences` into `cur`, closing a chunk when the next
sentence would overflow, hard-splitting any single sentence that alone
exceeds `maxChars`.  The source mutates `out`/`cur`; here the emitted
chunks are returned and `cur` is threaded explicitly. -/
def packSents (m : Nat) : List JsStr → JsStr → List JsStr
  | [], cur => if cur = [] then [] else [trim cur]
  | s :: ss, cur =>
    if (if cur = [] then 0 else cur.length + 1) + s.length ≤ m then
      packSents m ss (if cur = [] then s else cur ++ [' '] ++ s)
    else
      (if cur = [] then [] else [trim cur]) ++
      (if m < s.length then hardSplit s m ++ packSents m ss []
       else packSents m ss s)

/-- `splitLargePieceBySentences(piece, maxChars)`. -/
def splitLargePieceBySentences (piece : JsStr) (maxChars : Nat) : List JsStr :=
  let sentences :=
    ((sentSplit (replaceRuns isJsWs 1 [' '] piece)).map trim).filter
      (fun s => !s.isEmpty)
  if sentences.length ≤ 1 then hardSplit piece maxChars
  else packSents maxChars sentences []

/-- The paragraph-packing loop of `splitTextIntoChunks` (`addPiece` over
every paragraph followed by the final `pushCurrent`), with the `chunks`
array returned and `current` threaded explicitly.  The guard
`if (!piece) return` is kept even though the caller filters empty pieces. -/
def packParas (m : Nat) : List JsStr → JsStr → List JsStr
  | [], current => if current = [] then [] else [trim current]
  | p :: ps, current =>
    if p = [] then packParas m ps current
    else if (if current = [] then 0 else current.length + 2) + p.length ≤ m then
      packParas m ps (if current = [] then p else current ++ jstr "\n\n" ++ p)
    else
      (if current = [] then [] else [trim current]) ++
      (if m < p.length then splitLargePieceBySentences p m ++ packParas m ps []
       else packParas m ps p)

/-- `splitTextIntoChunks(text, maxTokensApprox)` from `src/services/tts.ts`:
budget `maxChars = maxTokensApprox * 4`, whole-text fast path, paragraph
packing over `split(/\n{2,}/g)`, falling through per oversized paragraph to
sentence packing and hard splitting. -/
def splitTextIntoChunks (text : JsStr) (maxTokensApprox : Nat) : List JsStr :=
  let maxChars := maxTokensApprox * 4
  let cleaned := cleanText text
  if cleaned = [] then []
  else if cleaned.length ≤ maxChars then [cleaned]
  else
    packParas maxChars
      (((chopRuns (fun c => c = '\n') 2 cleaned).map trim).filter
        (fun p => !p.isEmpty))
      []

/-! ## `src/services/parser/pdf.parser.ts`: the chapter segmenter -/

/-- A chapter as produced by `splitTextIntoChapters` (`ParsedChapter` in
`src/types/parser`): a zero-based position, an optional title and the body
text. -/
structure ParsedChapter where
  index : Nat
  title : Option JsStr
  text : JsStr
deriving DecidableEq, Repr

/-- Case-insensitive match of a single letter of `cap[ií]tulo` under the
regex `i` flag, for the letters actually in the pattern. -/
def ciIs (c target : Char) : Bool := jsToLower c = target

/-- Attempt to match the chapter-heading regex `cap[ií]tulo\s+\d+.*` (flags
`gi`) at the start of `l`.  On success returns the matched characters and
the remainder.  The character classes `\s` and `\d` are disjoint and `.*`
is unconstrained afterwards, so the greedy quantifiers need no
backtracking: the match is the 8 pattern letters, the maximal whitespace
run (non-empty), the maximal digit run (non-empty) and the rest of the
line. -/
def matchChapterAt (l : JsStr) : Option (JsStr × JsStr) :=
  match l with
  | c0 :: c1 :: c2 :: c3 :: c4 :: c5 :: c6 :: c7 :: rest =>
    if ciIs c0 'c' ∧ ciIs c1 'a' ∧ ciIs c2 'p' ∧
        (c3 = 'i' ∨ c3 = 'I' ∨ c3 = 'í' ∨ c3 = 'Í') ∧
        ciIs c4 't' ∧ ciIs c5 'u' ∧ ciIs c6 'l' ∧ ciIs c7 'o' then
      let ws := rest.takeWhile isJsWs
      let r1 := rest.dropWhile isJsWs
      if ws = [] then none
      else
        let ds := r1.takeWhile isDigitCh
        let r2 := r1.dropWhile isDigitCh
        if ds = [] then none
        else
          let line := r2.takeWhile (fun c => !isLineTerm c)
          let r3 := r2.dropWhile (fun c => !isLineTerm c)
          some ([c0, c1, c2, c3, c4, c5, c6, c7] ++ ws ++ ds ++ line, r3)
    else none
  | _ => none

/-- A successful heading match is non-empty and exactly covers the
consumed characters. -/
theorem matchChapterAt_shape {l m r : JsStr} (h : matchChapterAt l = some (m, r)) :
    m ≠ [] ∧ m ++ r = l := by
  match l with
  | [] => simp [matchChapterAt] at h
  | [a] | [a,b] | [a,b,c] | [a,b,c,d] | [a,b,c,d,e] | [a,b,c,d,e,f]
  | [a,b,c,d,e,f,g] => simp [matchChapterAt] at h
  | c0 :: c1 :: c2 :: c3 :: c4 :: c5 :: c6 :: c7 :: rest =>
    simp only [matchChapterAt] at h
    split at h
    · split at h
      · simp at h
      · split at h
        · simp at h
        · simp only [Option.some.injEq, Prod.mk.injEq] at h
          obtain ⟨hm, hr⟩ := h
          subst hm hr
          refine ⟨by simp, ?_⟩
          simp only [List.cons_append, List.nil_append, List.append_assoc]
          rw [List.takeWhile_append_dropWhile, List.takeWhile_append_dropWhile,
            List.takeWhile_append_dropWhile]
    · simp at h

/-- `text.split(chapterRegex)` with the capturing group: the pieces
between matches interleaved with the matched headings, each tagged `true`
when it is a matched heading.  `acc` carries the (reversed) characters of
the piece under construction; `skip` counts characters of a found match
that still have to be consumed before scanning resumes (after a match of
length `n` at `c :: t`, the `n - 1` remaining matched characters of `t`
are skipped one at a time, keeping the recursion structural). -/
def splitChaptersGo (skip : Nat) (acc : JsStr) : JsStr → List (Bool × JsStr)
  | [] => [(false, acc.reverse)]
  | c :: t =>
    match skip with
    | n + 1 => splitChaptersGo n acc t
    | 0 =>
      match matchChapterAt (c :: t) with
      | some (m, _) => (false, acc.reverse) :: (true, m) :: splitChaptersGo (m.length - 1) [] t
      | none => splitChaptersGo 0 (c :: acc) t

/-- The pieces of `text.split(chapterRegex)` (headings kept, tags
dropped). -/
def splitChapterPieces (text : JsStr) : List JsStr :=
  (splitChaptersGo 0 [] text).map Prod.snd

/-- The number of heading-regex matches found in `text` by the global
split scan. -/
def countChapterMatches (text : JsStr) : Nat :=
  ((splitChaptersGo 0 [] text).filter (fun pr => pr.1)).length

/-- `parts`: the split pieces with blank pieces discarded
(`.filter((p) => p.trim().length > 0)`). -/
def chapterParts (text : JsStr) : List JsStr :=
  (splitChapterPieces text).filter (fun p => !(trim p).isEmpty)

/-- The heading test of the walk:
`maybeTitle.toLowerCase().startsWith("capítulo") || ... ("capitulo")`. -/
def startsWithCapLower (t : JsStr) : Bool :=
  (jstr "capítulo").isPrefixOf (t.map jsToLower) ∨
  (jstr "capitulo").isPrefixOf (t.map jsToLower)

/-- Replace the last element of a list (mutation of
`chapters[chapters.length - 1]`). -/
def updateLast (f : α → α) : List α → List α
  | [] => []
  | [x] => [f x]
  | x :: xs => x :: updateLast f xs

/-- The `parts.length > 1` walk of `splitTextIntoChapters`: each qualifying
piece (heading-regex prefix, or trimmed length below 80) starts a chapter
titled by it whose body is the next piece; a non-qualifying piece becomes
an initial untitled chapter at index 0, or is appended (after a blank
line) to the text of the last chapter.  `currentIndex` is *not* advanced
when the initial untitled chapter is pushed, exactly as in the source. -/
def walkParts : List JsStr → Nat → List ParsedChapter → List ParsedChapter
  | [], _, chapters => chapters
  | p :: rest, currentIndex, chapters =>
    let maybeTitle := trim p
    if startsWithCapLower maybeTitle ∨ maybeTitle.length < 80 then
      match rest with
      | [] => chapters ++ [⟨currentIndex, some maybeTitle, []⟩]
      | b :: rest2 =>
        walkParts rest2 (currentIndex + 1)
          (chapters ++ [⟨currentIndex, some maybeTitle, trim b⟩])
    else
      if chapters.isEmpty then
        walkParts rest currentIndex [⟨0, none, maybeTitle⟩]
      else
        walkParts rest currentIndex
          (updateLast (fun ch => ⟨ch.index, ch.title, ch.text ++ jstr "\n\n" ++ maybeTitle⟩)
            chapters)

/-- The windowing loop of the blocking fallback: `acc` is the (reversed)
current window, `cnt` its remaining capacity out of the block size
5000. -/
def blockGo (idx : Nat) : Nat → JsStr → JsStr → List ParsedChapter
  | _, acc, [] => if acc = [] then [] else [⟨idx, none, acc.reverse⟩]
  | 0, acc, c :: t => ⟨idx, none, acc.reverse⟩ :: blockGo (idx + 1) 4999 [c] t
  | cnt + 1, acc, c :: t => blockGo idx cnt (c :: acc) t

/-- The `else` branch of `splitTextIntoChapters`: fixed-size blocking into
untitled windows of `blockSize = 5000` characters, the last window
possibly shorter, indices counted up from `idx`. -/
def blockChapters (idx : Nat) (text : JsStr) : List ParsedChapter :=
  match text with
  | [] => []
  | c :: t => blockGo idx 4999 [c] t

/-- `splitTextIntoChapters(rawText)` from `src/services/parser/pdf.parser.ts`. -/
def splitTextIntoChapters (rawText : JsStr) : List ParsedChapter :=
  let text := replaceCrLf rawText
  let parts := chapterParts text
  if parts.length > 1 then walkParts parts 0 []
  else blockChapters 0 text

/-! ## `src/utils/ttsEstimate.ts`: cost estimation -/

/-- `TTS_WORDS_PER_MINUTE` from `src/config/billing.ts`. -/
def TTS_WORDS_PER_MINUTE : ℚ := 160

/-- `TTS_PRICE_PER_MINUTE_USD` from `src/config/billing.ts`. -/
def TTS_PRICE_PER_MINUTE_USD : ℚ := 0.0065

/-- The `TtsEstimate` record.  The JS `number` fields `minutes` and
`costUsd` are modelled over `ℚ` (exact arithmetic in place of IEEE
floats); the claims under verification only concern `words`. -/
structure TtsEstimate where
  words : Nat
  minutes : ℚ
  costUsd : ℚ
deriving DecidableEq, Repr

/-- `countWords(text)`: trim, return 0 for the empty string, else the
number of pieces of `split(/\s+/)`. -/
def countWords (text : JsStr) : Nat :=
  let trimmed := trim text
  if trimmed = [] then 0
  else (chopRuns isJsWs 1 trimmed).length

/-- `estimateText(text)`. -/
def estimateText (text : JsStr) : TtsEstimate :=
  let words := countWords text
  let minutes := (words : ℚ) / TTS_WORDS_PER_MINUTE
  ⟨words, minutes, minutes * TTS_PRICE_PER_MINUTE_USD⟩

/-- `estimateTextBatch(texts)`: sum of the per-text word counts, then the
same minute/cost derivation. -/
def estimateTextBatch (texts : List JsStr) : TtsEstimate :=
  let totalWords := (texts.map countWords).sum
  let minutes := (totalWords : ℚ) / TTS_WORDS_PER_MINUTE
  ⟨totalWords, minutes, minutes * TTS_PRICE_PER_MINUTE_USD⟩

/-! ## `synthesizeChapter` from `src/services/tts.ts`

The external effects (the OpenAI speech call, `fs.mkdir`, `fs.writeFile`)
are modelled by an oracle `synth` mapping the call number and the input
string to either an audio byte buffer (`List Nat`) or a provider error
`ε`.  The model records which calls were issued and either the final
concatenated buffer (what the source writes to
`audios/<bookId>/chapter-<i>.mp3`) or the surfaced error. -/

/-- `TtsStyle` from `src/services/tts.ts`. -/
inductive TtsStyle where
  | narrative
  | learning
deriving DecidableEq, Repr

/-- `buildInstructions(style)`. -/
def buildInstructions (style : TtsStyle) : JsStr :=
  match style with
  | .learning =>
    jstr "Español neutro. Ritmo claro y pausado. Pronuncia con claridad. Pausas naturales."
  | .narrative =>
    jstr "Español neutro. Tono narrativo fluido y natural. Entonación agradable. Pausas naturales."

/-- The errors `synthesizeChapter` can surface: the "empty chapter" error
thrown before any synthesis call, or a provider error propagated from a
synthesis call. -/
inductive TtsError (ε : Type) where
  | emptyChapter (chapterIndex : Nat)
  | synth (e : ε)
deriving DecidableEq

/-- Decidable equality for `Except`, so that concrete `synthesizeChapter`
outcomes can be compared by `decide`. -/
instance exceptDecEq {α β : Type} [DecidableEq α] [DecidableEq β] :
    DecidableEq (Except α β) := fun a b =>
  match a, b with
  | .error x, .error y =>
    if h : x = y then .isTrue (by rw [h]) else .isFalse (by simp [h])
  | .error _, .ok _ => .isFalse (by simp)
  | .ok _, .error _ => .isFalse (by simp)
  | .ok x, .ok y =>
    if h : x = y then .isTrue (by rw [h]) else .isFalse (by simp [h])

/-- The outcome of one `synthesizeChapter` run: the synthesis calls issued
(call number and input string, in order) and the result. -/
structure SynthRun (ε : Type) where
  calls : List (Nat × JsStr)
  result : Except (TtsError ε) (List Nat)
deriving DecidableEq

/-- The chunk loop of `synthesizeChapter`: for each chunk in order, call
the synthesis oracle on `instructions + "\n\n" + chunk`; an error aborts
the loop at once (the `await` throws out of the function).  Returns the
calls issued and either the buffers produced or the first error. -/
def synthLoop (synth : Nat → JsStr → Except ε (List Nat)) (instr : JsStr) :
    Nat → List JsStr → List (Nat × JsStr) × Except ε (List (List Nat))
  | _, [] => ([], .ok [])
  | i, c :: cs =>
    let input := instr ++ jstr "\n\n" ++ c
    match synth i input with
    | .error e => ([(i, input)], .error e)
    | .ok buf =>
      let rec_ := synthLoop synth instr (i + 1) cs
      ((i, input) :: rec_.1, rec_.2.map (buf :: ·))

/-- `synthesizeChapter(args)`: split the chapter text with the fixed
budget 1600, fail with the "Capítulo vacío" error when there are no
chunks, otherwise run the sequential synthesis loop and concatenate the
buffers (`Buffer.concat`). -/
def synthesizeChapter (synth : Nat → JsStr → Except ε (List Nat))
    (chapterIndex : Nat) (text : JsStr) (style : TtsStyle) : SynthRun ε :=
  let instructions := buildInstructions style
  let chunks := splitTextIntoChunks text 1600
  if chunks = [] then ⟨[], .error (.emptyChapter chapterIndex)⟩
  else
    let run := synthLoop synth instructions 0 chunks
    ⟨run.1,
      match run.2 with
      | .error e => .error (.synth e)
      | .ok bufs => .ok bufs.flatten⟩

/-! ## Spec-side notions used to state the claims -/

/-- Delete every whitespace character: two strings are "equal modulo
whitespace" in the weak sense when their `removeWs` images coincide. -/
def removeWs (l : JsStr) : JsStr := l.filter (fun c => !isJsWs c)

/-- The claims' "collapsing whitespace runs and trimming": trim, then
replace every whitespace run by a single space. -/
def collapseWs (l : JsStr) : JsStr := replaceRuns isJsWs 1 [' '] (trim l)

/-- Concatenation of the chapter `text` fields in order. -/
def concatTexts (chs : List ParsedChapter) : JsStr :=
  (chs.map (fun ch => ch.text)).flatten

/-- Concatenation of every chapter's title (where present) followed by its
`text`, in order: the full textual content the segmenter retained. -/
def concatTitlesTexts (chs : List ParsedChapter) : JsStr :=
  (chs.map (fun ch => ch.title.getD [] ++ ch.text)).flatten

/-- Concatenation of a chunk list with no separator. -/
def concatChunks (chunks : List JsStr) : JsStr := chunks.flatten

/-- Concatenation of a chunk list with a single-space separator at each
join point. -/
def spaceJoin (chunks : List JsStr) : JsStr :=
  (List.intersperse (jstr " ") chunks).flatten

/-- When `splitTextIntoChapters` actually uses the fixed-size blocking
fallback, phrased on the observable match structure: either the heading
regex never matches the normalized text, or it matches exactly once and
everything outside that single match is whitespace. -/
def fallbackCondition (rawText : JsStr) : Prop :=
  countChapterMatches (replaceCrLf rawText) = 0 ∨
  (countChapterMatches (replaceCrLf rawText) = 1 ∧
    ∀ pr ∈ splitChaptersGo 0 [] (replaceCrLf rawText), pr.1 = false → trim pr.2 = [])

/-! ## General lemmas about the string primitives -/

/-- `trimLeft` never lengthens a string. -/
theorem trimLeft_length_le (l : JsStr) : (trimLeft l).length ≤ l.length := by
  unfold trimLeft
  induction l with
  | nil => simp
  | cons c t ih =>
    by_cases h : isJsWs c <;> simp [List.dropWhile_cons, h]
    omega

/-- `trim` never lengthens a string. -/
theorem trim_length_le (l : JsStr) : (trim l).length ≤ l.length := by
  unfold trim trimRight
  calc (trimLeft (trimLeft l).reverse).reverse.length
      ≤ (trimLeft l).reverse.length := by
        rw [List.length_reverse]
        exact le_trans (trimLeft_length_le _) (by rw [List.length_reverse])
    _ ≤ l.length := by rw [List.length_reverse]; exact trimLeft_length_le l

/-! ## Claim C1: every chunk fits in the character budget -/

/-- Every slice `hardGo` emits has at most `m` characters, provided the
current slice has at most `m` characters including its remaining
capacity. -/
theorem hardGo_length_le (m : Nat) (hm : 1 ≤ m) :
    ∀ (l : JsStr) (cnt : Nat) (acc : JsStr), acc.length + cnt ≤ m →
      ∀ p ∈ hardGo m cnt acc l, p.length ≤ m := by
  intro l
  induction l with
  | nil =>
    intro cnt acc hacc p hp
    simp only [hardGo] at hp
    split at hp
    · simp at hp
    · simp only [List.mem_singleton] at hp
      subst hp
      exact le_trans (trim_length_le _) (by simp; omega)
  | cons c t ih =>
    intro cnt acc hacc p hp
    match cnt with
    | 0 =>
      simp only [hardGo] at hp
      rcases List.mem_cons.mp hp with h | h
      · subst h
        exact le_trans (trim_length_le _) (by simp; omega)
      · exact ih (m - 1) [c] (by simp; omega) p h
    | cnt + 1 =>
      simp only [hardGo] at hp
      exact ih cnt (c :: acc) (by simp; omega) p hp

/-- Every piece returned by `hardSplit` has at most `m` characters. -/
theorem hardSplit_length_le (t : JsStr) (m : Nat) :
    ∀ p ∈ hardSplit t m, p.length ≤ m := by
  intro p hp
  unfold hardSplit hardSlices at hp
  match t with
  | [] => simp at hp
  | c :: t' =>
    by_cases hm : m = 0
    · simp [hm] at hp
    · simp only [hm, if_false] at hp
      have := List.mem_of_mem_filter hp
      exact hardGo_length_le m (by omega) t' (m - 1) [c] (by simp; omega) p this

/-- Every chunk the sentence-packing loop emits has at most `m`
characters, provided the running chunk does. -/
theorem packSents_length_le (m : Nat) :
    ∀ (ss : List JsStr) (cur : JsStr), cur.length ≤ m →
      ∀ p ∈ packSents m ss cur, p.length ≤ m := by
  intro ss
  induction ss with
  | nil =>
    intro cur hcur p hp
    simp only [packSents] at hp
    split at hp
    · simp at hp
    · simp only [List.mem_singleton] at hp
      subst hp
      exact le_trans (trim_length_le _) hcur
  | cons s ss ih =>
    intro cur hcur p hp
    by_cases hc : cur = []
    · subst hc
      simp only [packSents, List.length_nil, eq_self_iff_true, ite_true] at hp
      by_cases hfit : 0 + s.length ≤ m
      · rw [if_pos hfit] at hp
        exact ih s (by omega) p hp
      · rw [if_neg hfit] at hp
        simp only [List.nil_append] at hp
        rw [if_pos (by omega : m < s.length)] at hp
        rcases List.mem_append.mp hp with h | h
        · exact hardSplit_length_le s m p h
        · exact ih [] (by simp) p h
    · simp only [packSents, if_neg hc] at hp
      by_cases hfit : cur.length + 1 + s.length ≤ m
      · rw [if_pos hfit] at hp
        refine ih _ ?_ p hp
        simp only [List.length_append, List.length_singleton]
        omega
      · rw [if_neg hfit] at hp
        rcases List.mem_append.mp hp with h | h
        · simp only [List.mem_singleton] at h
          subst h
          exact le_trans (trim_length_le _) hcur
        · by_cases hbig : m < s.length
          · rw [if_pos hbig] at h
            rcases List.mem_append.mp h with h2 | h2
            · exact hardSplit_length_le s m p h2
            · exact ih [] (by simp) p h2
          · rw [if_neg hbig] at h
            exact ih s (by omega) p h

/-- Every chunk of `splitLargePieceBySentences` has at most `m`
characters. -/
theorem splitLarge_length_le (piece : JsStr) (m : Nat) :
    ∀ p ∈ splitLargePieceBySentences piece m, p.length ≤ m := by
  intro p hp
  simp only [splitLargePieceBySentences] at hp
  split at hp
  · exact hardSplit_length_le piece m p hp
  · exact packSents_length_le m _ [] (by simp) p hp

/-- Every chunk the paragraph-packing loop emits has at most `m`
characters, provided the running chunk does. -/
theorem packParas_length_le (m : Nat) :
    ∀ (ps : List JsStr) (cur : JsStr), cur.length ≤ m →
      ∀ p ∈ packParas m ps cur, p.length ≤ m := by
  intro ps
  induction ps with
  | nil =>
    intro cur hcur p hp
    simp only [packParas] at hp
    split at hp
    · simp at hp
    · simp only [List.mem_singleton] at hp
      subst hp
      exact le_trans (trim_length_le _) hcur
  | cons q ps ih =>
    intro cur hcur p hp
    by_cases hemp : q = []
    · simp only [packParas, if_pos hemp] at hp
      exact ih cur hcur p hp
    · simp only [packParas, if_neg hemp] at hp
      by_cases hc : cur = []
      · subst hc
        simp only [List.length_nil, eq_self_iff_true, ite_true] at hp
        by_cases hfit : 0 + q.length ≤ m
        · rw [if_pos hfit] at hp
          exact ih q (by omega) p hp
        · rw [if_neg hfit] at hp
          simp only [List.nil_append] at hp
          rw [if_pos (by omega : m < q.length)] at hp
          rcases List.mem_append.mp hp with h | h
          · exact splitLarge_length_le q m p h
          · exact ih [] (by simp) p h
      · simp only [if_neg hc] at hp
        by_cases hfit : cur.length + 2 + q.length ≤ m
        · rw [if_pos hfit] at hp
          refine ih _ ?_ p hp
          simp only [List.length_append, jstr]
          simp [String.data]
          omega
        · rw [if_neg hfit] at hp
          rcases List.mem_append.mp hp with h | h
          · simp only [List.mem_singleton] at h
            subst h
            exact le_trans (trim_length_le _) hcur
          · by_cases hbig : m < q.length
            · rw [if_pos hbig] at h
              rcases List.mem_append.mp h with h2 | h2
              · exact splitLarge_length_le q m p h2
              · exact ih [] (by simp) p h2
            · rw [if_neg hbig] at h
              exact ih q (by omega) p h

/-- **Claim C1.**  For every input text and every positive budget
(`maxTokensApprox ≥ 1`, so `maxChars = 4 * maxTokensApprox`), every chunk
string returned by `splitTextIntoChunks` has length at most the budget in
characters; the bound holds across the whole-text fast path, paragraph
packing, sentence packing and hard splitting. -/
theorem splitTextIntoChunks_length_le_budget (text : JsStr) (b : Nat) (c : JsStr)
    (hb : 1 ≤ b) (hc : c ∈ splitTextIntoChunks text b) : c.length ≤ 4 * b := by
  rw [Nat.mul_comm]
  simp only [splitTextIntoChunks] at hc
  split at hc
  · simp at hc
  · split at hc
    · rename_i hlen
      simp only [List.mem_singleton] at hc
      subst hc
      exact hlen
    · exact packParas_length_le (b * 4) _ [] (by simp) c hc

/-- Witness for C1 at `text = "hello"`, budget 1: the chunk `"hell"` is
produced (by the hard-split tier) and obeys the 4-character bound. -/
theorem splitTextIntoChunks_length_le_budget_witness :
    1 ≤ 1 ∧ jstr "hell" ∈ splitTextIntoChunks (jstr "hello") 1 ∧
      (jstr "hell").length ≤ 4 * 1 :=
  ⟨by decide, by decide,
    splitTextIntoChunks_length_le_budget (jstr "hello") 1 (jstr "hell")
      (by decide) (by decide)⟩

/-- **Claim C4** (code bug).  The spec requires gapless, duplicate-free
zero-based chapter indices, but when a long non-heading piece precedes the
first heading the walk pushes the initial untitled chapter with literal
index 0 without advancing `currentIndex`, so the next chapter also gets
index 0: on 80 `'a'`s followed by `"\nCapítulo 1 x\nbody"` the emitted
indices are `[0, 0]`, not `[0, 1]`. -/
theorem splitTextIntoChapters_duplicate_index :
    (splitTextIntoChapters (List.replicate 80 'a' ++ jstr "\nCapítulo 1 x\nbody")).map
        (fun ch => ch.index) = [0, 0] ∧
      (splitTextIntoChapters (List.replicate 80 'a' ++ jstr "\nCapítulo 1 x\nbody")).length
        = 2 := by
  decide

/-- **Claim C8, counterexample.**  The claim promises exactly one chunk
equal to the *trimmed* input whenever the text fits the budget, but (a)
the chunk equals the *cleaned* input, which also collapses newline runs:
on `"a\n\n\n\nb"` the single chunk is `"a\n\nb"`, not the trimmed input
`"a\n\n\n\nb"`; and (b) an input that cleans to the empty string yields
zero chunks, not one. -/
theorem splitTextIntoChunks_fastpath_cx :
    splitTextIntoChunks (jstr "a\n\n\n\nb") 1600 = [jstr "a\n\nb"] ∧
      trim (jstr "a\n\n\n\nb") ≠ jstr "a\n\nb" ∧
      (jstr "a\n\n\n\nb").length ≤ 4 * 1600 ∧
      splitTextIntoChunks (jstr "") 1600 = [] := by
  decide

/-- **Claim C8 as amended.**  For every input text whose cleaned form
(CRLF normalized, runs of 3+ newlines collapsed to 2, trimmed) is
non-empty and has length at most the budget, `splitTextIntoChunks`
returns exactly one chunk, equal to the cleaned input. -/
theorem splitTextIntoChunks_fastpath (text : JsStr) (b : Nat)
    (hne : cleanText text ≠ []) (hlen : (cleanText text).length ≤ 4 * b) :
    splitTextIntoChunks text b = [cleanText text] := by
  simp only [splitTextIntoChunks]
  rw [if_neg hne, if_pos (by omega : (cleanText text).length ≤ b * 4)]

/-- Witness for the amended C8 at `text = " hola "`, budget 2: the single
chunk is the cleaned (here: trimmed) input `"hola"`. -/
theorem splitTextIntoChunks_fastpath_witness :
    cleanText (jstr " hola ") ≠ [] ∧
      (cleanText (jstr " hola ")).length ≤ 4 * 2 ∧
      splitTextIntoChunks (jstr " hola ") 2 = [cleanText (jstr " hola ")] :=
  ⟨by decide, by decide,
    splitTextIntoChunks_fastpath (jstr " hola ") 2 (by decide) (by decide)⟩

/-- **Claim C9.**  When the chunk splitter returns no chunks for a
chapter's text, `synthesizeChapter` raises the "empty chapter" error
carrying the chapter index, before making any synthesis call. -/
theorem synthesizeChapter_empty_error {ε : Type}
    (synth : Nat → JsStr → Except ε (List Nat)) (chapterIndex : Nat)
    (text : JsStr) (style : TtsStyle)
    (h : splitTextIntoChunks text 1600 = []) :
    synthesizeChapter synth chapterIndex text style =
      ⟨[], .error (.emptyChapter chapterIndex)⟩ := by
  simp only [synthesizeChapter, h, ite_true]

/-- Witness for C9 at the empty chapter text: no synthesis call is made
and the "empty chapter" error for chapter 7 is surfaced. -/
theorem synthesizeChapter_empty_error_witness :
    splitTextIntoChunks (jstr "") 1600 = [] ∧
      synthesizeChapter (ε := Unit) (fun _ _ => Except.ok ([] : List Nat)) 7 (jstr "")
          TtsStyle.narrative
        = ⟨[], .error (.emptyChapter 7)⟩ :=
  ⟨by decide,
    synthesizeChapter_empty_error (ε := Unit) (fun _ _ => Except.ok []) 7 (jstr "")
      TtsStyle.narrative (by decide)⟩

/-- **Claim C10.**  The `words` field of `estimateTextBatch` is the sum of
the `words` fields of `estimateText` over the list; in particular a
one-element batch agrees with `estimateText` and the empty batch counts 0
words. -/
theorem estimateTextBatch_words_sum (texts : List JsStr) :
    (estimateTextBatch texts).words =
      ((texts.map (fun t => (estimateText t).words)).sum) := by
  induction texts with
  | nil => rfl
  | cons t ts ih =>
    simp only [estimateTextBatch, estimateText, List.map_cons, List.map_map,
      List.sum_cons] at ih ⊢

/-- Witness for C10 at a concrete two-element batch. -/
theorem estimateTextBatch_words_sum_witness :
    (estimateTextBatch [jstr "a b", jstr " c "]).words =
      (([jstr "a b", jstr " c "].map (fun t => (estimateText t).words)).sum) :=
  estimateTextBatch_words_sum [jstr "a b", jstr " c "]

/-! ## Whitespace-removal lemmas: content preservation -/

theorem removeWs_append (a b : JsStr) :
    removeWs (a ++ b) = removeWs a ++ removeWs b := by
  simp [removeWs]

theorem removeWs_trimLeft (l : JsStr) : removeWs (trimLeft l) = removeWs l := by
  unfold trimLeft
  induction l with
  | nil => rfl
  | cons c t ih =>
    by_cases h : isJsWs c <;> simp [List.dropWhile_cons, h, removeWs, ih]
    simpa [removeWs] using ih

theorem removeWs_reverse (l : JsStr) : removeWs l.reverse = (removeWs l).reverse := by
  simp [removeWs, List.filter_reverse]

theorem removeWs_trim (l : JsStr) : removeWs (trim l) = removeWs l := by
  unfold trim trimRight
  rw [removeWs_reverse, removeWs_trimLeft, removeWs_reverse, List.reverse_reverse,
    removeWs_trimLeft]

/-- A string that trims to nothing is all whitespace. -/
theorem removeWs_eq_nil_of_trim {l : JsStr} (h : trim l = []) : removeWs l = [] := by
  rw [← removeWs_trim l, h]
  rfl

theorem removeWs_replaceCrLf (l : JsStr) : removeWs (replaceCrLf l) = removeWs l := by
  induction l using replaceCrLf.induct with
  | case1 t ih => simpa [replaceCrLf, removeWs] using ih
  | case2 c t hne ih =>
    rw [replaceCrLf.eq_2 c t hne]
    simp only [removeWs, List.filter_cons] at ih ⊢
    rw [ih]
  | case3 => rfl

/-- Characters accepted by a whitespace-only separator class vanish under
`removeWs`. -/
theorem removeWs_eq_nil_of_all_ws {l : JsStr} (h : ∀ c ∈ l, isJsWs c = true) :
    removeWs l = [] := by
  induction l with
  | nil => rfl
  | cons c t ih =>
    simp only [removeWs, List.filter_cons, h c (List.mem_cons_self c t),
      Bool.not_true, Bool.false_eq_true, if_false]
    exact ih (fun x hx => h x (List.mem_cons_of_mem c hx))

/-- `replGo` preserves non-whitespace content when the separator class and
the replacement are whitespace-only (the pending run is all separators). -/
theorem removeWs_replGo (sep : Char → Bool) (k : Nat) (rep : JsStr)
    (hsep : ∀ c, sep c = true → isJsWs c = true)
    (hrep : ∀ c ∈ rep, isJsWs c = true) :
    ∀ (l run : JsStr), (∀ c ∈ run, sep c = true) →
      removeWs (replGo sep k rep run l) = removeWs l := by
  intro l
  induction l with
  | nil =>
    intro run hrun
    simp only [replGo]
    split
    · rfl
    · split
      · exact removeWs_eq_nil_of_all_ws hrep
      · exact removeWs_eq_nil_of_all_ws
          (fun c hc => hsep c (hrun c (List.mem_reverse.mp hc)))
  | cons c t ih =>
    intro run hrun
    simp only [replGo]
    by_cases hs : sep c
    · rw [if_pos hs]
      rw [ih (c :: run) (by
        intro x hx
        rcases List.mem_cons.mp hx with h | h
        · subst h; exact hs
        · exact hrun x h)]
      have : removeWs (c :: t) = removeWs t := by
        simp [removeWs, List.filter_cons, hsep c hs]
      rw [this]
    · rw [if_neg hs, removeWs_append]
      have hemit : removeWs (if run = [] then [] else
          if k ≤ run.length then rep else run.reverse) = [] := by
        split
        · rfl
        · split
          · exact removeWs_eq_nil_of_all_ws hrep
          · exact removeWs_eq_nil_of_all_ws
              (fun x hx => hsep x (hrun x (List.mem_reverse.mp hx)))
      rw [hemit]
      simp only [removeWs, List.filter_cons] at ih ⊢
      rw [ih [] (by simp), List.nil_append]

/-- `replaceRuns` with a whitespace-only separator class and replacement
preserves non-whitespace content. -/
theorem removeWs_replaceRuns (sep : Char → Bool) (k : Nat) (rep : JsStr)
    (hsep : ∀ c, sep c = true → isJsWs c = true)
    (hrep : ∀ c ∈ rep, isJsWs c = true) (l : JsStr) :
    removeWs (replaceRuns sep k rep l) = removeWs l :=
  removeWs_replGo sep k rep hsep hrep l [] (by simp)

/-- `cleanText` preserves non-whitespace content. -/
theorem removeWs_cleanText (text : JsStr) : removeWs (cleanText text) = removeWs text := by
  unfold cleanText
  rw [removeWs_trim, removeWs_replaceRuns _ _ _ (fun c hc => by simp_all [isJsWs])
    (by decide), removeWs_replaceCrLf]

/-- `chopGo` never returns an empty piece list. -/
theorem chopGo_ne_nil (sep : Char → Bool) (k : Nat) :
    ∀ (l run : JsStr), chopGo sep k run l ≠ [] := by
  intro l
  induction l with
  | nil =>
    intro run
    simp only [chopGo]
    split
    · simp
    · split <;> simp
  | cons c t ih =>
    intro run
    simp only [chopGo]
    split
    · exact ih (c :: run)
    · split
      · cases h : chopGo sep k [] t with
        | nil => exact absurd h (ih [])
        | cons a as => simp [h]
      · split
        · simp
        · cases h : chopGo sep k [] t with
          | nil => exact absurd h (ih [])
          | cons a as => simp [h]

/-- `sentGo` never returns an empty piece list. -/
theorem sentGo_ne_nil :
    ∀ (l run : JsStr) (eb : Bool), sentGo eb run l ≠ [] := by
  intro l
  induction l with
  | nil =>
    intro run eb
    simp only [sentGo]
    split <;> simp
  | cons c t ih =>
    intro run eb
    simp only [sentGo]
    split
    · exact ih (c :: run) eb
    · split
      · cases h : sentGo (isSentEnd c) [] t with
        | nil => exact absurd h (ih [] _)
        | cons a as => simp [h]
      · split
        · simp
        · cases h : sentGo (isSentEnd c) [] t with
          | nil => exact absurd h (ih [] _)
          | cons a as => simp [h]

/-- Flattening after prepending to the head piece. -/
theorem flatten_modifyHead (pre : JsStr) {L : List JsStr} (h : L ≠ []) :
    (L.modifyHead (pre ++ ·)).flatten = pre ++ L.flatten := by
  cases L with
  | nil => exact absurd rfl h
  | cons a as => simp [List.modifyHead, List.flatten_cons]

/-- Flattening after consing onto the head piece. -/
theorem flatten_modifyHead_cons (c : Char) {L : List JsStr} (h : L ≠ []) :
    (L.modifyHead (c :: ·)).flatten = c :: L.flatten := by
  cases L with
  | nil => exact absurd rfl h
  | cons a as => simp [List.modifyHead, List.flatten_cons]

/-- Removing whitespace from a cons. -/
theorem removeWs_cons (c : Char) (t : JsStr) :
    removeWs (c :: t) = (if isJsWs c then [] else [c]) ++ removeWs t := by
  simp only [removeWs, List.filter_cons]
  by_cases h : isJsWs c <;> simp [h]

/-- The pieces of `chopGo` carry exactly the non-whitespace content of the
input when the separator class is whitespace-only. -/
theorem removeWs_chopGo_flatten (sep : Char → Bool) (k : Nat)
    (hsep : ∀ c, sep c = true → isJsWs c = true) :
    ∀ (l run : JsStr), (∀ c ∈ run, sep c = true) →
      removeWs (chopGo sep k run l).flatten = removeWs l := by
  intro l
  induction l with
  | nil =>
    intro run hrun
    simp only [chopGo]
    split
    · simp [removeWs]
    · split
      · simp [removeWs]
      · simp only [List.flatten_cons, List.flatten_nil, List.append_nil]
        exact removeWs_eq_nil_of_all_ws
          (fun c hc => hsep c (hrun c (List.mem_reverse.mp hc)))
  | cons c t ih =>
    intro run hrun
    simp only [chopGo]
    split
    · rename_i hs
      rw [ih (c :: run) (by
        intro x hx
        rcases List.mem_cons.mp hx with h | h
        · subst h; exact hs
        · exact hrun x h)]
      rw [removeWs_cons, if_pos (hsep c hs), List.nil_append]
    · rename_i hs
      have hns : isJsWs c = false ∨ isJsWs c = true := by
        cases isJsWs c <;> simp
      split
      · rw [flatten_modifyHead_cons c (chopGo_ne_nil sep k t []),
          removeWs_cons, removeWs_cons, ih [] (by simp)]
      · split
        · rw [List.flatten_cons, List.nil_append,
            flatten_modifyHead_cons c (chopGo_ne_nil sep k t []),
            removeWs_cons, removeWs_cons, ih [] (by simp)]
        · rw [flatten_modifyHead (run.reverse)
              (by
                cases h2 : chopGo sep k [] t with
                | nil => exact absurd h2 (chopGo_ne_nil sep k t [])
                | cons a as => simp [h2, List.modifyHead]),
            removeWs_append,
            removeWs_eq_nil_of_all_ws
              (fun x hx => hsep x (hrun x (List.mem_reverse.mp hx))),
            List.nil_append,
            flatten_modifyHead_cons c (chopGo_ne_nil sep k t []),
            removeWs_cons, removeWs_cons, ih [] (by simp)]

/-- `chopRuns` with a whitespace-only separator class preserves
non-whitespace content. -/
theorem removeWs_chopRuns_flatten (sep : Char → Bool) (k : Nat)
    (hsep : ∀ c, sep c = true → isJsWs c = true) (l : JsStr) :
    removeWs (chopRuns sep k l).flatten = removeWs l :=
  removeWs_chopGo_flatten sep k hsep l [] (by simp)

/-- The pieces of `sentGo` carry exactly the non-whitespace content of the
input (the discarded sentence separators are whitespace runs). -/
theorem removeWs_sentGo_flatten :
    ∀ (l run : JsStr) (eb : Bool), (∀ c ∈ run, isJsWs c = true) →
      removeWs (sentGo eb run l).flatten = removeWs l := by
  intro l
  induction l with
  | nil =>
    intro run eb hrun
    simp only [sentGo]
    split
    · simp [removeWs]
    · simp only [List.flatten_cons, List.flatten_nil, List.append_nil]
      exact removeWs_eq_nil_of_all_ws (fun c hc => hrun c (List.mem_reverse.mp hc))
  | cons c t ih =>
    intro run eb hrun
    simp only [sentGo]
    split
    · rename_i hs
      rw [ih (c :: run) eb (by
        intro x hx
        rcases List.mem_cons.mp hx with h | h
        · subst h; exact hs
        · exact hrun x h)]
      rw [removeWs_cons, if_pos hs, List.nil_append]
    · split
      · rw [flatten_modifyHead_cons c (sentGo_ne_nil t [] _),
          removeWs_cons, removeWs_cons, ih [] _ (by simp)]
      · split
        · rw [List.flatten_cons, List.nil_append,
            flatten_modifyHead_cons c (sentGo_ne_nil t [] _),
            removeWs_cons, removeWs_cons, ih [] _ (by simp)]
        · rw [flatten_modifyHead (run.reverse)
              (by
                cases h2 : sentGo (isSentEnd c) [] t with
                | nil => exact absurd h2 (sentGo_ne_nil t [] _)
                | cons a as => simp [h2, List.modifyHead]),
            removeWs_append,
            removeWs_eq_nil_of_all_ws
              (fun x hx => hrun x (List.mem_reverse.mp hx)),
            List.nil_append,
            flatten_modifyHead_cons c (sentGo_ne_nil t [] _),
            removeWs_cons, removeWs_cons, ih [] _ (by simp)]

/-- Dropping empty pieces does not change the flattened content. -/
theorem flatten_filter_nonempty (L : List JsStr) :
    (L.filter (fun p => !p.isEmpty)).flatten = L.flatten := by
  induction L with
  | nil => rfl
  | cons a as ih =>
    by_cases h : a = []
    · subst h
      simp [List.filter_cons, ih]
    · rw [List.filter_cons, if_pos (by simp [List.isEmpty_iff, h])]
      simp [List.flatten_cons, ih]

/-- Trimming every piece does not change the non-whitespace content of the
flattened list. -/
theorem removeWs_flatten_map_trim (L : List JsStr) :
    removeWs (L.map trim).flatten = removeWs L.flatten := by
  induction L with
  | nil => rfl
  | cons a as ih =>
    simp only [List.map_cons, List.flatten_cons, removeWs_append, removeWs_trim, ih]

/-- The slices of `hardGo` carry exactly the non-whitespace content of the
pending slice followed by the remaining input. -/
theorem removeWs_hardGo_flatten (m : Nat) :
    ∀ (l : JsStr) (cnt : Nat) (acc : JsStr),
      removeWs (hardGo m cnt acc l).flatten = removeWs (acc.reverse ++ l) := by
  intro l
  induction l with
  | nil =>
    intro cnt acc
    simp only [hardGo]
    split
    · rename_i h
      subst h
      simp
    · simp [removeWs_trim]
  | cons c t ih =>
    intro cnt acc
    match cnt with
    | 0 =>
      rw [show hardGo m 0 acc (c :: t) = trim acc.reverse :: hardGo m (m - 1) [c] t from rfl,
        List.flatten_cons, removeWs_append, removeWs_trim, ih (m - 1) [c]]
      simp [removeWs_append, removeWs_cons]
    | cnt + 1 =>
      rw [show hardGo m (cnt + 1) acc (c :: t) = hardGo m cnt (c :: acc) t from rfl,
        ih cnt (c :: acc)]
      simp [removeWs_append, removeWs_cons]

/-- `hardSplit` with a positive budget preserves non-whitespace content. -/
theorem removeWs_hardSplit_flatten (t : JsStr) (m : Nat) (hm : 1 ≤ m) :
    removeWs (hardSplit t m).flatten = removeWs t := by
  cases t with
  | nil => rfl
  | cons c t' =>
    simp only [hardSplit, hardSlices]
    rw [flatten_filter_nonempty, if_neg (by omega : ¬m = 0), removeWs_hardGo_flatten]
    simp [removeWs_cons]

theorem removeWs_nil : removeWs [] = [] := rfl

theorem isJsWs_space : isJsWs ' ' = true := rfl

theorem isJsWs_newline : isJsWs '\n' = true := rfl

/-- The chunks emitted by the sentence-packing loop carry exactly the
non-whitespace content of the running chunk followed by the remaining
sentences. -/
theorem removeWs_packSents_flatten (m : Nat) (hm : 1 ≤ m) :
    ∀ (ss : List JsStr) (cur : JsStr),
      removeWs (packSents m ss cur).flatten = removeWs cur ++ removeWs ss.flatten := by
  intro ss
  induction ss with
  | nil =>
    intro cur
    simp only [packSents, List.flatten_nil, removeWs_nil, List.append_nil]
    split
    · rename_i h
      subst h
      exact removeWs_nil
    · simp only [List.flatten_cons, List.flatten_nil, List.append_nil, removeWs_trim]
  | cons s ss ih =>
    intro cur
    by_cases hc : cur = []
    · subst hc
      simp only [packSents, List.length_nil, eq_self_iff_true, ite_true]
      by_cases hfit : 0 + s.length ≤ m
      · rw [if_pos hfit, ih s]
        simp [removeWs_nil, removeWs_append]
      · rw [if_neg hfit, if_pos (by omega : m < s.length)]
        simp only [List.nil_append, List.flatten_append, removeWs_append,
          removeWs_hardSplit_flatten s m hm, ih [], List.flatten_cons,
          removeWs_nil]
    · simp only [packSents, if_neg hc]
      by_cases hfit : cur.length + 1 + s.length ≤ m
      · rw [if_pos hfit, ih (cur ++ [' '] ++ s)]
        simp [removeWs_append, removeWs_cons, List.flatten_cons, isJsWs_space]
      · rw [if_neg hfit]
        by_cases hbig : m < s.length
        · rw [if_pos hbig]
          simp only [List.flatten_append, List.flatten_cons, List.flatten_nil,
            List.append_nil, removeWs_append, removeWs_trim,
            removeWs_hardSplit_flatten s m hm, ih [], removeWs_nil,
            List.nil_append]
        · rw [if_neg hbig]
          simp only [List.flatten_append, List.flatten_cons, List.flatten_nil,
            List.append_nil, removeWs_append, removeWs_trim, ih s]

/-- `splitLargePieceBySentences` preserves non-whitespace content for a
positive budget. -/
theorem removeWs_splitLarge_flatten (piece : JsStr) (m : Nat) (hm : 1 ≤ m) :
    removeWs (splitLargePieceBySentences piece m).flatten = removeWs piece := by
  simp only [splitLargePieceBySentences]
  split
  · exact removeWs_hardSplit_flatten piece m hm
  · rw [removeWs_packSents_flatten m hm _ [], removeWs_nil, List.nil_append,
      flatten_filter_nonempty, removeWs_flatten_map_trim]
    show removeWs (sentGo false [] _).flatten = _
    rw [removeWs_sentGo_flatten _ [] false (by simp)]
    exact removeWs_replaceRuns isJsWs 1 [' '] (fun c hc => hc) (by decide) piece

/-- The chunks emitted by the paragraph-packing loop carry exactly the
non-whitespace content of the running chunk followed by the remaining
paragraphs. -/
theorem removeWs_packParas_flatten (m : Nat) (hm : 1 ≤ m) :
    ∀ (ps : List JsStr) (cur : JsStr),
      removeWs (packParas m ps cur).flatten = removeWs cur ++ removeWs ps.flatten := by
  intro ps
  induction ps with
  | nil =>
    intro cur
    simp only [packParas, List.flatten_nil, removeWs_nil, List.append_nil]
    split
    · rename_i h
      subst h
      exact removeWs_nil
    · simp only [List.flatten_cons, List.flatten_nil, List.append_nil, removeWs_trim]
  | cons q ps ih =>
    intro cur
    by_cases hemp : q = []
    · subst hemp
      simp only [packParas, eq_self_iff_true, ite_true, ih cur, List.flatten_cons,
        removeWs_nil, List.nil_append]
    · simp only [packParas, if_neg hemp]
      by_cases hc : cur = []
      · subst hc
        simp only [List.length_nil, eq_self_iff_true, ite_true]
        by_cases hfit : 0 + q.length ≤ m
        · rw [if_pos hfit, ih q]
          simp [removeWs_nil, removeWs_append]
        · rw [if_neg hfit, if_pos (by omega : m < q.length)]
          simp only [List.nil_append, List.flatten_append, removeWs_append,
            removeWs_splitLarge_flatten q m hm, ih [], List.flatten_cons,
            removeWs_nil]
      · simp only [if_neg hc]
        by_cases hfit : cur.length + 2 + q.length ≤ m
        · rw [if_pos hfit, ih (cur ++ jstr "\n\n" ++ q)]
          simp [removeWs_append, removeWs_cons, List.flatten_cons, jstr,
            isJsWs_newline]
        · rw [if_neg hfit]
          by_cases hbig : m < q.length
          · rw [if_pos hbig]
            simp only [List.flatten_append, List.flatten_cons, List.flatten_nil,
              List.append_nil, removeWs_append, removeWs_trim,
              removeWs_splitLarge_flatten q m hm, ih [], removeWs_nil,
              List.nil_append]
          · rw [if_neg hbig]
            simp only [List.flatten_append, List.flatten_cons, List.flatten_nil,
              List.append_nil, removeWs_append, removeWs_trim, ih q]

/-- **Claim C6 as amended.**  For every input text and positive budget,
concatenating all chunks returned by `splitTextIntoChunks`, in order,
reproduces the cleaned input text modulo whitespace: no non-whitespace
character is lost, duplicated or reordered (whitespace at chunk
boundaries may be dropped or rewritten, so only whitespace-deleting
comparison holds in general). -/
theorem splitTextIntoChunks_content (text : JsStr) (b : Nat) (hb : 1 ≤ b) :
    removeWs (splitTextIntoChunks text b).flatten = removeWs text := by
  have hclean : removeWs (cleanText text) = removeWs text := removeWs_cleanText text
  simp only [splitTextIntoChunks]
  split
  · rename_i h
    rw [← hclean, h]
    rfl
  · split
    · simp only [List.flatten_cons, List.flatten_nil, List.append_nil]
      exact hclean
    · rw [removeWs_packParas_flatten (b * 4) (by omega) _ [], removeWs_nil,
        List.nil_append, flatten_filter_nonempty, removeWs_flatten_map_trim]
      rw [show ∀ l, chopRuns (fun c => c = '\n') 2 l = chopGo (fun c => c = '\n') 2 [] l
          from fun _ => rfl]
      rw [removeWs_chopGo_flatten _ 2 (fun c hc => by
          simp only [decide_eq_true_eq] at hc
          simp [isJsWs, hc]) _ [] (by simp)]
      exact hclean

/-- Witness for the amended C6 at `text = "a b"`, budget 1. -/
theorem splitTextIntoChunks_content_witness :
    (1 : Nat) ≤ 1 ∧
      removeWs (splitTextIntoChunks (jstr "a b") 1).flatten = removeWs (jstr "a b") :=
  ⟨le_refl 1, splitTextIntoChunks_content (jstr "a b") 1 (le_refl 1)⟩

/-- **Claim C6, counterexample.**  The claim's stronger reading — equality
after collapsing whitespace runs and trimming — fails: with budget 1 the
text `"Abc. Defg."` splits into `["Abc.", "Defg", "."]` (the second
sentence is hard-split mid-token), and neither concatenating the chunks
directly nor joining them with single spaces is collapse-equal to the
cleaned text: the space between the sentences is lost at a chunk boundary,
and space-joining inserts a space inside `"Defg."`. -/
theorem splitTextIntoChunks_collapse_cx :
    splitTextIntoChunks (jstr "Abc. Defg.") 1 = [jstr "Abc.", jstr "Defg", jstr "."] ∧
      collapseWs (concatChunks (splitTextIntoChunks (jstr "Abc. Defg.") 1)) ≠
        collapseWs (cleanText (jstr "Abc. Defg.")) ∧
      collapseWs (spaceJoin (splitTextIntoChunks (jstr "Abc. Defg.") 1)) ≠
        collapseWs (cleanText (jstr "Abc. Defg.")) ∧
      collapseWs (concatChunks (splitTextIntoChunks (jstr "Abc. Defg.") 1)) ≠
        collapseWs (jstr "Abc. Defg.") ∧
      collapseWs (spaceJoin (splitTextIntoChunks (jstr "Abc. Defg.") 1)) ≠
        collapseWs (jstr "Abc. Defg.") := by
  decide

/-! ## Content preservation of the chapter segmenter (claim C5) -/

/-- The split pieces (headings included) concatenate exactly to the piece
under construction followed by the not-yet-skipped input. -/
theorem splitChaptersGo_flatten :
    ∀ (l : JsStr) (skip : Nat) (acc : JsStr),
      ((splitChaptersGo skip acc l).map Prod.snd).flatten = acc.reverse ++ l.drop skip := by
  intro l
  induction l with
  | nil =>
    intro skip acc
    simp [splitChaptersGo]
  | cons c t ih =>
    intro skip acc
    match skip with
    | n + 1 =>
      rw [show splitChaptersGo (n + 1) acc (c :: t) = splitChaptersGo n acc t from rfl,
        ih n acc, List.drop_succ_cons]
    | 0 =>
      simp only [List.drop_zero]
      rw [show splitChaptersGo 0 acc (c :: t) =
          match matchChapterAt (c :: t) with
          | some (m, _) =>
            (false, acc.reverse) :: (true, m) :: splitChaptersGo (m.length - 1) [] t
          | none => splitChaptersGo 0 (c :: acc) t
          from rfl]
      cases hm : matchChapterAt (c :: t) with
      | none =>
        simp only
        rw [ih 0 (c :: acc)]
        simp
      | some pr =>
        obtain ⟨m, r⟩ := pr
        obtain ⟨hne, hcat⟩ := matchChapterAt_shape hm
        simp only [List.map_cons, List.flatten_cons, ih (m.length - 1) []]
        match m, hne with
        | m0 :: mrest, _ =>
          have hm0 : m0 = c ∧ mrest ++ r = t := by
            have := hcat
            simp only [List.cons_append, List.cons.injEq] at this
            exact this
          obtain ⟨h1, h2⟩ := hm0
          subst h1
          rw [← h2]
          simp only [List.length_cons, Nat.add_sub_cancel, List.reverse_nil,
            List.nil_append]
          rw [List.drop_left]
          simp

/-- Pieces whose trim is empty contribute no non-whitespace content. -/
theorem removeWs_flatten_filter_trim (L : List JsStr) :
    removeWs ((L.filter (fun p => !(trim p).isEmpty)).flatten) = removeWs L.flatten := by
  induction L with
  | nil => rfl
  | cons a as ih =>
    rw [List.filter_cons]
    by_cases h : (trim a).isEmpty
    · rw [if_neg (by simp [h]), List.flatten_cons, removeWs_append,
        removeWs_eq_nil_of_trim (List.isEmpty_iff.mp h), List.nil_append, ih]
    · rw [if_pos (by simp [h]), List.flatten_cons, List.flatten_cons,
        removeWs_append, removeWs_append, ih]

/-- Appending to the text of the last chapter appends to the rendered
content. -/
theorem concatTitlesTexts_updateLast (a b : JsStr) :
    ∀ (chs : List ParsedChapter), chs ≠ [] →
      concatTitlesTexts
        (updateLast (fun ch => ⟨ch.index, ch.title, ch.text ++ a ++ b⟩) chs) =
        concatTitlesTexts chs ++ a ++ b := by
  intro chs
  induction chs with
  | nil => intro h; exact absurd rfl h
  | cons x xs ih =>
    intro _
    cases xs with
    | nil => simp [updateLast, concatTitlesTexts]
    | cons y ys =>
      rw [show updateLast (fun ch => (⟨ch.index, ch.title, ch.text ++ a ++ b⟩ : ParsedChapter))
          (x :: y :: ys) =
          x :: updateLast (fun ch => ⟨ch.index, ch.title, ch.text ++ a ++ b⟩) (y :: ys)
          from rfl]
      simp only [concatTitlesTexts, List.map_cons, List.flatten_cons] at ih ⊢
      rw [ih (by simp)]
      simp [List.append_assoc]

theorem concatTitlesTexts_append (a b : List ParsedChapter) :
    concatTitlesTexts (a ++ b) = concatTitlesTexts a ++ concatTitlesTexts b := by
  simp [concatTitlesTexts]

/-- The walk preserves non-whitespace content: the rendered chapters carry
the accumulated chapters' content followed by the remaining pieces'
content. -/
theorem removeWs_walkParts (parts : List JsStr) (idx : Nat) (chs : List ParsedChapter) :
    removeWs (concatTitlesTexts (walkParts parts idx chs)) =
      removeWs (concatTitlesTexts chs) ++ removeWs parts.flatten := by
  induction parts, idx, chs using walkParts.induct with
  | case1 idx chs =>
    simp [walkParts, removeWs_nil]
  | case2 p idx chs mt hq =>
    have hq2 : startsWithCapLower (trim p) = true ∨ (trim p).length < 80 := hq
    rw [show walkParts [p] idx chs =
        chs ++ [⟨idx, some (trim p), []⟩] from by
      rw [walkParts.eq_def]
      dsimp only
      rw [if_pos hq2]]
    simp [concatTitlesTexts_append, concatTitlesTexts, removeWs_append,
      removeWs_trim, removeWs_nil]
  | case3 p idx chs mt hq b rest2 ih =>
    have hq2 : startsWithCapLower (trim p) = true ∨ (trim p).length < 80 := hq
    rw [show walkParts (p :: b :: rest2) idx chs =
        walkParts rest2 (idx + 1) (chs ++ [⟨idx, some (trim p), trim b⟩]) from by
      rw [walkParts.eq_def]
      dsimp only
      rw [if_pos hq2]]
    rw [ih, concatTitlesTexts_append]
    simp only [concatTitlesTexts, List.map_cons, List.map_nil, List.flatten_cons,
      List.flatten_nil, List.append_nil, Option.getD_some, removeWs_append,
      removeWs_trim]
    simp [removeWs_append, List.append_assoc]
    show removeWs (trim p) = removeWs p
    exact removeWs_trim p
  | case4 p rest idx chs mt hq hemp ih =>
    have hq2 : ¬(startsWithCapLower (trim p) = true ∨ (trim p).length < 80) := hq
    rw [show walkParts (p :: rest) idx chs =
        walkParts rest idx [⟨0, none, trim p⟩] from by
      rw [walkParts.eq_def]
      dsimp only
      rw [if_neg hq2, if_pos hemp]]
    rw [ih, List.isEmpty_iff.mp hemp]
    simp [concatTitlesTexts, removeWs_append, removeWs_trim, removeWs_nil,
      List.flatten_cons]
    show removeWs (trim p) = removeWs p
    exact removeWs_trim p
  | case5 p rest idx chs mt hq hemp ih =>
    have hq2 : ¬(startsWithCapLower (trim p) = true ∨ (trim p).length < 80) := hq
    rw [show walkParts (p :: rest) idx chs =
        walkParts rest idx
          (updateLast (fun ch => ⟨ch.index, ch.title, ch.text ++ jstr "\n\n" ++ trim p⟩)
            chs) from by
      rw [walkParts.eq_def]
      dsimp only
      rw [if_neg hq2, if_neg hemp]]
    rw [ih, concatTitlesTexts_updateLast _ _ _ (fun h => hemp (by rw [h]; rfl))]
    simp [removeWs_append, removeWs_trim, removeWs_cons, isJsWs_newline, jstr,
      List.flatten_cons, List.append_assoc]
    show removeWs (trim p) = removeWs p
    exact removeWs_trim p

/-- The blocking fallback windows concatenate exactly to the pending
window followed by the remaining input (titles are all `none`, so the
rendered content is just the window texts). -/
theorem concatTitlesTexts_blockGo :
    ∀ (l : JsStr) (idx cnt : Nat) (acc : JsStr),
      concatTitlesTexts (blockGo idx cnt acc l) = acc.reverse ++ l := by
  intro l
  induction l with
  | nil =>
    intro idx cnt acc
    simp only [blockGo]
    split
    · rename_i h
      subst h
      rfl
    · simp [concatTitlesTexts]
  | cons c t ih =>
    intro idx cnt acc
    match cnt with
    | 0 =>
      rw [show blockGo idx 0 acc (c :: t) =
          ⟨idx, none, acc.reverse⟩ :: blockGo (idx + 1) 4999 [c] t from rfl]
      simp only [concatTitlesTexts, List.map_cons, List.flatten_cons,
        Option.getD_none, List.nil_append] at ih ⊢
      rw [ih (idx + 1) 4999 [c]]
      simp
    | cnt + 1 =>
      rw [show blockGo idx (cnt + 1) acc (c :: t) = blockGo idx cnt (c :: acc) t from rfl,
        ih idx cnt (c :: acc)]
      simp

/-- The blocking fallback reproduces its input exactly. -/
theorem concatTitlesTexts_blockChapters (idx : Nat) (text : JsStr) :
    concatTitlesTexts (blockChapters idx text) = text := by
  cases text with
  | nil => rfl
  | cons c t =>
    rw [show blockChapters idx (c :: t) = blockGo idx 4999 [c] t from rfl,
      concatTitlesTexts_blockGo t idx 4999 [c]]
    rfl

/-- **Claim C5 as amended.**  Concatenating each chapter's title (where
present) and text, in index order, reproduces the normalized input modulo
whitespace: the two strings agree after deleting every whitespace
character.  The chapter `text` fields alone do not suffice, because the
heading lines are captured as `title`s and dropped from the bodies. -/
theorem splitTextIntoChapters_content (rawText : JsStr) :
    removeWs (concatTitlesTexts (splitTextIntoChapters rawText)) = removeWs rawText := by
  rw [splitTextIntoChapters.eq_def]
  dsimp only
  split
  · rw [removeWs_walkParts, show concatTitlesTexts [] = [] from rfl, removeWs_nil,
      List.nil_append]
    show removeWs (chapterParts (replaceCrLf rawText)).flatten = _
    unfold chapterParts splitChapterPieces
    rw [removeWs_flatten_filter_trim, splitChaptersGo_flatten _ 0 []]
    simp only [List.reverse_nil, List.nil_append, List.drop_zero]
    exact removeWs_replaceCrLf rawText
  · rw [concatTitlesTexts_blockChapters]
    exact removeWs_replaceCrLf rawText

/-- Witness for the amended C5 at the two-chapter scenario input. -/
theorem splitTextIntoChapters_content_witness :
    removeWs (concatTitlesTexts
        (splitTextIntoChapters (jstr "Capítulo 1\nHola.\n\nCapítulo 2\nMundo."))) =
      removeWs (jstr "Capítulo 1\nHola.\n\nCapítulo 2\nMundo.") :=
  splitTextIntoChapters_content (jstr "Capítulo 1\nHola.\n\nCapítulo 2\nMundo.")

/-- **Claim C5, counterexample.**  Concatenating only the `text` fields
drops the heading lines: on the spec's own two-chapter scenario the
chapters are `(0, "Capítulo 1", "Hola.")` and `(1, "Capítulo 2",
"Mundo.")`, whose texts concatenate to `"Hola.Mundo."`, which is not equal
to the input modulo whitespace collapsing and trimming (the headings are
missing). -/
theorem splitTextIntoChapters_texts_cx :
    splitTextIntoChapters (jstr "Capítulo 1\nHola.\n\nCapítulo 2\nMundo.") =
      [⟨0, some (jstr "Capítulo 1"), jstr "Hola."⟩,
        ⟨1, some (jstr "Capítulo 2"), jstr "Mundo."⟩] ∧
      collapseWs (concatTexts
          (splitTextIntoChapters (jstr "Capítulo 1\nHola.\n\nCapítulo 2\nMundo."))) ≠
        collapseWs (jstr "Capítulo 1\nHola.\n\nCapítulo 2\nMundo.") ∧
      collapseWs (concatTexts
          (splitTextIntoChapters (jstr "Capítulo 1\nHola.\n\nCapítulo 2\nMundo."))) ≠
        collapseWs (replaceCrLf (jstr "Capítulo 1\nHola.\n\nCapítulo 2\nMundo.")) := by
  decide

/-! ## Claim C7: which inputs produce an empty chapter list -/

theorem updateLast_ne_nil {α : Type} (f : α → α) {l : List α} (h : l ≠ []) :
    updateLast f l ≠ [] := by
  cases l with
  | nil => exact absurd rfl h
  | cons x xs => cases xs <;> simp [updateLast]

/-- The walk never discards chapters: with a non-empty piece list or a
non-empty accumulator it produces at least one chapter. -/
theorem walkParts_ne_nil (parts : List JsStr) (idx : Nat) (chs : List ParsedChapter) :
    parts ≠ [] ∨ chs ≠ [] → walkParts parts idx chs ≠ [] := by
  induction parts, idx, chs using walkParts.induct with
  | case1 idx chs =>
    intro h
    rcases h with h | h
    · exact absurd rfl h
    · simpa [walkParts] using h
  | case2 p idx chs mt hq =>
    intro _
    have hq2 : startsWithCapLower (trim p) = true ∨ (trim p).length < 80 := hq
    rw [show walkParts [p] idx chs = chs ++ [⟨idx, some (trim p), []⟩] from by
      rw [walkParts.eq_def]
      dsimp only
      rw [if_pos hq2]]
    simp
  | case3 p idx chs mt hq b rest2 ih =>
    intro _
    have hq2 : startsWithCapLower (trim p) = true ∨ (trim p).length < 80 := hq
    rw [show walkParts (p :: b :: rest2) idx chs =
        walkParts rest2 (idx + 1) (chs ++ [⟨idx, some (trim p), trim b⟩]) from by
      rw [walkParts.eq_def]
      dsimp only
      rw [if_pos hq2]]
    exact ih (Or.inr (by simp))
  | case4 p rest idx chs mt hq hemp ih =>
    intro _
    have hq2 : ¬(startsWithCapLower (trim p) = true ∨ (trim p).length < 80) := hq
    rw [show walkParts (p :: rest) idx chs = walkParts rest idx [⟨0, none, trim p⟩] from by
      rw [walkParts.eq_def]
      dsimp only
      rw [if_neg hq2, if_pos hemp]]
    exact ih (Or.inr (by simp))
  | case5 p rest idx chs mt hq hemp ih =>
    intro _
    have hq2 : ¬(startsWithCapLower (trim p) = true ∨ (trim p).length < 80) := hq
    rw [show walkParts (p :: rest) idx chs =
        walkParts rest idx
          (updateLast (fun ch => ⟨ch.index, ch.title, ch.text ++ jstr "\n\n" ++ trim p⟩)
            chs) from by
      rw [walkParts.eq_def]
      dsimp only
      rw [if_neg hq2, if_neg hemp]]
    exact ih (Or.inr (updateLast_ne_nil _ (by simpa [List.isEmpty_iff] using hemp)))

theorem replaceCrLf_eq_nil_iff (l : JsStr) : replaceCrLf l = [] ↔ l = [] := by
  induction l using replaceCrLf.induct with
  | case1 t ih => simp [replaceCrLf]
  | case2 c t hne ih => rw [replaceCrLf.eq_2 c t hne]; simp
  | case3 => simp [replaceCrLf]

theorem blockGo_ne_nil :
    ∀ (l : JsStr) (idx cnt : Nat) (acc : JsStr), acc ≠ [] →
      blockGo idx cnt acc l ≠ [] := by
  intro l
  induction l with
  | nil =>
    intro idx cnt acc h
    simp only [blockGo]
    rw [if_neg h]
    simp
  | cons c t ih =>
    intro idx cnt acc h
    match cnt with
    | 0 =>
      rw [show blockGo idx 0 acc (c :: t) =
          ⟨idx, none, acc.reverse⟩ :: blockGo (idx + 1) 4999 [c] t from rfl]
      simp
    | cnt + 1 =>
      rw [show blockGo idx (cnt + 1) acc (c :: t) = blockGo idx cnt (c :: acc) t from rfl]
      exact ih idx cnt (c :: acc) (by simp)

/-- The blocking fallback produces at least one chapter for non-empty
input. -/
theorem blockChapters_ne_nil (idx : Nat) {text : JsStr} (h : text ≠ []) :
    blockChapters idx text ≠ [] := by
  cases text with
  | nil => exact absurd rfl h
  | cons c t =>
    rw [show blockChapters idx (c :: t) = blockGo idx 4999 [c] t from rfl]
    exact blockGo_ne_nil t idx 4999 [c] (by simp)

/-- **Claim C7, counterexample.**  A whitespace-only non-empty input does
not yield the empty chapter list: on three spaces the fallback emits one
untitled chapter whose text is the whitespace itself. -/
theorem splitTextIntoChapters_whitespace_cx :
    splitTextIntoChapters (jstr "   ") = [⟨0, none, jstr "   "⟩] ∧
      jstr "   " ≠ [] ∧ trim (jstr "   ") = [] := by
  decide

/-- **Claim C7 as amended.**  `splitTextIntoChapters` returns the empty
chapter list exactly for the empty input; a whitespace-only non-empty
input instead reaches the fixed-size blocking fallback, which emits at
least one (whitespace) chapter.  No input makes the segmenter crash (it
is a total function). -/
theorem splitTextIntoChapters_empty_iff (rawText : JsStr) :
    splitTextIntoChapters rawText = [] ↔ rawText = [] := by
  constructor
  · intro h
    by_contra hne
    rw [splitTextIntoChapters.eq_def] at h
    dsimp only at h
    split at h
    · exact walkParts_ne_nil _ 0 []
        (Or.inl (by
          rename_i hlen
          intro hp
          rw [hp] at hlen
          simp at hlen)) h
    · exact blockChapters_ne_nil 0
        (fun hz => hne ((replaceCrLf_eq_nil_iff rawText).mp hz)) h
  · intro h
    subst h
    decide

/-- Witness for the amended C7 at the whitespace-only input. -/
theorem splitTextIntoChapters_empty_iff_witness :
    splitTextIntoChapters (jstr " ") = [] ↔ jstr " " = [] :=
  splitTextIntoChapters_empty_iff (jstr " ")

/-! ## Claim C2: failure semantics of `synthesizeChapter` -/

theorem replaceCrLf_of_no_cr {l : JsStr} (h : '\r' ∉ l) : replaceCrLf l = l := by
  induction l using replaceCrLf.induct with
  | case1 t ih => exact absurd (by simp) h
  | case2 c t hne ih =>
    rw [replaceCrLf.eq_2 c t hne, ih (fun hm => h (List.mem_cons_of_mem c hm))]
  | case3 => rfl

theorem replGo_of_no_sep {sep : Char → Bool} {k : Nat} {rep : JsStr} :
    ∀ {l : JsStr}, (∀ c ∈ l, sep c = false) → replGo sep k rep [] l = l := by
  intro l
  induction l with
  | nil => intro _; rfl
  | cons c t ih =>
    intro h
    rw [show replGo sep k rep [] (c :: t) =
        if sep c then replGo sep k rep [c] t
        else [] ++ c :: replGo sep k rep [] t from by
      simp only [replGo]
      split <;> simp]
    rw [if_neg (by simp [h c (List.mem_cons_self c t)]), List.nil_append,
      ih (fun x hx => h x (List.mem_cons_of_mem c hx))]

theorem trimLeft_of_no_ws {l : JsStr} (h : ∀ c ∈ l, isJsWs c = false) :
    trimLeft l = l := by
  cases l with
  | nil => rfl
  | cons c t =>
    unfold trimLeft
    rw [List.dropWhile_cons, if_neg (by simp [h c (List.mem_cons_self c t)])]

theorem trim_of_no_ws {l : JsStr} (h : ∀ c ∈ l, isJsWs c = false) : trim l = l := by
  unfold trim trimRight
  rw [trimLeft_of_no_ws h, trimLeft_of_no_ws (fun c hc => h c (List.mem_reverse.mp hc)),
    List.reverse_reverse]

theorem chopGo_of_no_sep {sep : Char → Bool} {k : Nat} :
    ∀ {l : JsStr}, (∀ c ∈ l, sep c = false) → chopGo sep k [] l = [l] := by
  intro l
  induction l with
  | nil => intro _; rfl
  | cons c t ih =>
    intro h
    rw [show chopGo sep k [] (c :: t) =
        if sep c then chopGo sep k [c] t
        else (chopGo sep k [] t).modifyHead (c :: ·) from by
      simp only [chopGo]
      split <;> simp]
    rw [if_neg (by simp [h c (List.mem_cons_self c t)]),
      ih (fun x hx => h x (List.mem_cons_of_mem c hx))]
    rfl

theorem sentGo_of_no_ws :
    ∀ {l : JsStr} (eb : Bool), (∀ c ∈ l, isJsWs c = false) → sentGo eb [] l = [l] := by
  intro l
  induction l with
  | nil => intro eb h; rfl
  | cons c t ih =>
    intro eb h
    rw [show sentGo eb [] (c :: t) =
        if isJsWs c then sentGo eb [c] t
        else (sentGo (isSentEnd c) [] t).modifyHead (c :: ·) from by
      simp only [sentGo]
      split <;> simp]
    rw [if_neg (by simp [h c (List.mem_cons_self c t)]),
      ih _ (fun x hx => h x (List.mem_cons_of_mem c hx))]
    rfl

/-- The mathematical slicing of `hardSplit`: successive windows of `m`
characters. -/
def sliceEvery (m : Nat) (l : JsStr) : List JsStr :=
  if h : l = [] ∨ m = 0 then []
  else l.take m :: sliceEvery m (l.drop m)
termination_by l.length
decreasing_by
  rcases not_or.mp h with ⟨h1, h2⟩
  simp only [List.length_drop]
  have : 0 < l.length := List.length_pos.mpr h1
  omega

/-- `hardGo` computes the trimmed `sliceEvery` windows of the pending
slice followed by the input, when the pending capacity is consistent. -/
theorem hardGo_eq_sliceEvery (m : Nat) :
    ∀ (l : JsStr) (cnt : Nat) (acc : JsStr), acc ≠ [] → cnt + acc.length = m →
      hardGo m cnt acc l = (sliceEvery m (acc.reverse ++ l)).map trim := by
  intro l
  induction l with
  | nil =>
    intro cnt acc hne hcnt
    rw [show hardGo m cnt acc [] = if acc = [] then [] else [trim acc.reverse] from by
      cases cnt <;> rfl]
    have hlen : 0 < acc.length := List.length_pos.mpr hne
    rw [if_neg hne, List.append_nil, sliceEvery]
    rw [dif_neg (by
      push_neg
      constructor
      · simpa using hne
      · omega)]
    rw [List.take_of_length_le (by rw [List.length_reverse]; omega)]
    rw [List.drop_eq_nil_of_le (by rw [List.length_reverse]; omega), sliceEvery]
    simp
  | cons c t ih =>
    intro cnt acc hne hcnt
    match cnt with
    | 0 =>
      have hlen : 0 < acc.length := List.length_pos.mpr hne
      rw [show hardGo m 0 acc (c :: t) =
          trim acc.reverse :: hardGo m (m - 1) [c] t from rfl]
      rw [ih (m - 1) [c] (by simp) (by simp; omega)]
      rw [show sliceEvery m (acc.reverse ++ c :: t) =
          (acc.reverse ++ c :: t).take m ::
            sliceEvery m ((acc.reverse ++ c :: t).drop m) from by
        rw [sliceEvery]
        rw [dif_neg (by
          push_neg
          constructor
          · simp
          · omega)]]
      rw [show (acc.reverse ++ c :: t).take m = acc.reverse from by
        rw [List.take_append_of_le_length (by rw [List.length_reverse]; omega)]
        rw [List.take_of_length_le (by rw [List.length_reverse]; omega)]]
      rw [show (acc.reverse ++ c :: t).drop m = c :: t from by
        rw [List.drop_append_of_le_length (by rw [List.length_reverse]; omega)]
        rw [List.drop_eq_nil_of_le (by rw [List.length_reverse]; omega), List.nil_append]]
      simp
    | cnt + 1 =>
      rw [show hardGo m (cnt + 1) acc (c :: t) = hardGo m cnt (c :: acc) t from rfl]
      rw [ih cnt (c :: acc) (by simp) (by simp at hcnt ⊢; omega)]
      simp [List.append_assoc]

/-- `hardSplit` is the trimmed, non-empty `sliceEvery` windows. -/
theorem hardSplit_eq_sliceEvery (t : JsStr) (m : Nat) (hm : 1 ≤ m) :
    hardSplit t m = ((sliceEvery m t).map trim).filter (fun p => !p.isEmpty) := by
  cases t with
  | nil =>
    rw [show hardSplit [] m = [] from rfl, sliceEvery]
    simp
  | cons c t' =>
    unfold hardSplit
    rw [show hardSlices m (c :: t') = if m = 0 then [] else hardGo m (m - 1) [c] t'
        from rfl]
    rw [if_neg (by omega), hardGo_eq_sliceEvery m t' (m - 1) [c] (by simp) (by simp; omega)]
    simp

/-- No character of a replicated `'A'` block is whitespace, a newline, a
carriage return, or anything the scanners split on. -/
theorem replicateA_no_ws (n : Nat) : ∀ c ∈ List.replicate n 'A', isJsWs c = false := by
  intro c hc
  rw [(List.eq_of_mem_replicate hc : c = 'A')]
  rfl

/-- A replicated block is non-empty when its length is. -/
theorem replicateA_ne_nil {n : Nat} (hn : n ≠ 0) :
    (List.replicate n 'A' : JsStr) ≠ [] := by
  intro h
  have := congrArg List.length h
  simp only [List.length_replicate, List.length_nil] at this
  exact hn this

/-- The chunks of a 6401-character block of `'A'`s at the fixed budget
1600 (6400 characters): the paragraph and sentence tiers find no
boundaries and the hard-split tier cuts at exactly 6400 characters. -/
theorem splitTextIntoChunks_bigA :
    splitTextIntoChunks (List.replicate 6401 'A') 1600 =
      [List.replicate 6400 'A', ['A']] := by
  have hnw := replicateA_no_ws 6401
  have hclean : cleanText (List.replicate 6401 'A') = List.replicate 6401 'A' := by
    unfold cleanText
    rw [replaceCrLf_of_no_cr (by
      intro hm
      have := List.eq_of_mem_replicate hm
      simp at this)]
    rw [show replaceRuns (fun c => c = '\n') 3 (jstr "\n\n") (List.replicate 6401 'A') =
        replGo (fun c => c = '\n') 3 (jstr "\n\n") [] (List.replicate 6401 'A') from rfl]
    rw [replGo_of_no_sep (by
      intro c hc
      rw [(List.eq_of_mem_replicate hc : c = 'A')]
      rfl)]
    exact trim_of_no_ws hnw
  have hpara : chopRuns (fun c => c = '\n') 2 (List.replicate 6401 'A') =
      [List.replicate 6401 'A'] := by
    rw [show chopRuns (fun c => c = '\n') 2 (List.replicate 6401 'A') =
        chopGo (fun c => c = '\n') 2 [] (List.replicate 6401 'A') from rfl]
    exact chopGo_of_no_sep (by
      intro c hc
      rw [(List.eq_of_mem_replicate hc : c = 'A')]
      rfl)
  have hfilt : List.filter (fun p : JsStr => !p.isEmpty) [List.replicate 6401 'A'] =
      [List.replicate 6401 'A'] := by
    rw [List.filter_cons, if_pos (by
      rw [Bool.not_eq_true', List.isEmpty_eq_false]
      exact replicateA_ne_nil (by omega)), List.filter_nil]
  have hsent : splitLargePieceBySentences (List.replicate 6401 'A') 6400 =
      hardSplit (List.replicate 6401 'A') 6400 := by
    simp only [splitLargePieceBySentences]
    rw [show replaceRuns isJsWs 1 [' '] (List.replicate 6401 'A') =
        replGo isJsWs 1 [' '] [] (List.replicate 6401 'A') from rfl]
    rw [replGo_of_no_sep hnw]
    rw [show sentSplit (List.replicate 6401 'A') =
        sentGo false [] (List.replicate 6401 'A') from rfl]
    rw [sentGo_of_no_ws false hnw]
    rw [show List.map trim [List.replicate 6401 'A'] =
        [trim (List.replicate 6401 'A')] from rfl]
    rw [trim_of_no_ws hnw, hfilt]
    rw [if_pos (by rw [List.length_singleton])]
  have hhard : hardSplit (List.replicate 6401 'A') 6400 =
      [List.replicate 6400 'A', ['A']] := by
    rw [hardSplit_eq_sliceEvery _ _ (by omega)]
    rw [sliceEvery, dif_neg (by
      push_neg
      exact ⟨replicateA_ne_nil (by omega), by omega⟩)]
    rw [List.take_replicate, List.drop_replicate,
      show min 6400 6401 = 6400 from by norm_num,
      show (6401 - 6400 : Nat) = 1 from by norm_num]
    rw [sliceEvery, dif_neg (by
      push_neg
      exact ⟨replicateA_ne_nil (by omega), by omega⟩)]
    rw [List.take_replicate, List.drop_replicate,
      show min 6400 1 = 1 from by norm_num,
      show (1 - 6400 : Nat) = 0 from by norm_num]
    rw [show (List.replicate 0 'A' : JsStr) = [] from rfl]
    rw [sliceEvery, dif_pos (Or.inl rfl)]
    rw [show List.map trim [List.replicate 6400 'A', List.replicate 1 'A'] =
        [trim (List.replicate 6400 'A'), trim (List.replicate 1 'A')] from rfl]
    rw [trim_of_no_ws (replicateA_no_ws 6400), trim_of_no_ws (replicateA_no_ws 1)]
    rw [List.filter_cons, if_pos (by
      rw [Bool.not_eq_true', List.isEmpty_eq_false]
      exact replicateA_ne_nil (by omega))]
    rw [List.filter_cons, if_pos (by
      rw [Bool.not_eq_true', List.isEmpty_eq_false]
      exact replicateA_ne_nil (by omega)), List.filter_nil]
    rfl
  rw [show splitTextIntoChunks (List.replicate 6401 'A') 1600 =
      (if cleanText (List.replicate 6401 'A') = [] then []
       else if (cleanText (List.replicate 6401 'A')).length ≤ 1600 * 4 then
         [cleanText (List.replicate 6401 'A')]
       else
         packParas (1600 * 4)
           (((chopRuns (fun c => c = '\n') 2 (cleanText (List.replicate 6401 'A'))).map
               trim).filter (fun p => !p.isEmpty)) []) from rfl]
  rw [hclean]
  rw [if_neg (replicateA_ne_nil (by omega))]
  rw [if_neg (by rw [List.length_replicate]; omega)]
  rw [hpara]
  rw [show List.map trim [List.replicate 6401 'A'] =
      [trim (List.replicate 6401 'A')] from rfl]
  rw [trim_of_no_ws hnw, hfilt]
  rw [packParas.eq_def]
  dsimp only
  rw [if_neg (replicateA_ne_nil (by omega))]
  rw [if_neg (by
    rw [if_pos rfl, List.length_replicate]
    omega)]
  rw [if_pos rfl, if_pos (by rw [List.length_replicate]; omega)]
  rw [show (1600 * 4 : Nat) = 6400 from by norm_num]
  rw [hsent, hhard]
  rw [show packParas 6400 [] [] = [] from rfl]
  rfl

/-- If the first `k` synthesis calls succeed and call `k` fails, the loop
issues exactly the calls `i, i+1, ..., i+k` (none after the failure) and
returns the provider's error unchanged. -/
theorem synthLoop_fail {ε : Type} (synth : Nat → JsStr → Except ε (List Nat))
    (instr : JsStr) :
    ∀ (cs : List JsStr) (i k : Nat) (e : ε),
      k < cs.length →
      (∀ j, j < k →
        (synth (i + j) (instr ++ jstr "\n\n" ++ cs.getD j [])).isOk = true) →
      synth (i + k) (instr ++ jstr "\n\n" ++ cs.getD k []) = .error e →
      (synthLoop synth instr i cs).1.map Prod.fst = (List.range (k + 1)).map (i + ·) ∧
        (synthLoop synth instr i cs).2 = .error e := by
  intro cs
  induction cs with
  | nil =>
    intro i k e hk
    simp at hk
  | cons c cs ih =>
    intro i k e hk hsucc hfail
    match k with
    | 0 =>
      rw [Nat.add_zero, show (c :: cs).getD 0 [] = c from rfl] at hfail
      simp only [synthLoop]
      rw [hfail]
      rw [show List.range 1 = [0] from rfl]
      simp
    | k + 1 =>
      have hok := hsucc 0 (by omega)
      rw [Nat.add_zero, show (c :: cs).getD 0 [] = c from rfl] at hok
      cases hsy : synth i (instr ++ jstr "\n\n" ++ c) with
      | error e2 =>
        rw [hsy] at hok
        simp [Except.isOk, Except.toBool] at hok
      | ok buf =>
        have hsucc2 : ∀ j, j < k →
            (synth (i + 1 + j) (instr ++ jstr "\n\n" ++ cs.getD j [])).isOk = true := by
          intro j hj
          have := hsucc (j + 1) (by omega)
          rw [show i + (j + 1) = i + 1 + j from by omega,
            show (c :: cs).getD (j + 1) [] = cs.getD j [] from rfl] at this
          exact this
        have hfail2 :
            synth (i + 1 + k) (instr ++ jstr "\n\n" ++ cs.getD k []) = .error e := by
          rw [show i + 1 + k = i + (k + 1) from by omega,
            show cs.getD k [] = (c :: cs).getD (k + 1) [] from rfl]
          exact hfail
        obtain ⟨h1, h2⟩ := ih (i + 1) k e
          (by
            have h2 := hk
            simp only [List.length_cons] at h2
            omega)
          hsucc2 hfail2
        simp only [synthLoop]
        rw [hsy]
        refine ⟨?_, ?_⟩
        · dsimp only
          rw [List.map_cons, h1]
          conv_rhs => rw [List.range_succ_eq_map, List.map_cons, List.map_map]
          dsimp only
          rw [Nat.add_zero]
          refine congrArg (List.cons i) ?_
          refine List.map_congr_left ?_
          intro a ha
          dsimp only [Function.comp]
          omega
        · dsimp only
          rw [h2]
          rfl

/-- **Claim C2 as amended.**  If the synthesis call for chunk `k`
(0-based) fails while all earlier calls succeeded, `synthesizeChapter`
issues exactly the calls for chunks `0..k` — none for chunks `k+1..n-1` —
and surfaces the provider's error by propagating it; the surfaced failure
is the provider error alone, carrying neither the failing chunk's index
nor the buffers already produced (see the counterexample theorem). -/
theorem synthesizeChapter_abort {ε : Type} (synth : Nat → JsStr → Except ε (List Nat))
    (chapterIndex : Nat) (text : JsStr) (style : TtsStyle) (k : Nat) (e : ε)
    (hk : k < (splitTextIntoChunks text 1600).length)
    (hsucc : ∀ j, j < k →
      (synth j (buildInstructions style ++ jstr "\n\n" ++
        (splitTextIntoChunks text 1600).getD j [])).isOk = true)
    (hfail : synth k (buildInstructions style ++ jstr "\n\n" ++
      (splitTextIntoChunks text 1600).getD k []) = .error e) :
    (synthesizeChapter synth chapterIndex text style).calls.map Prod.fst =
        List.range (k + 1) ∧
      (synthesizeChapter synth chapterIndex text style).result =
        .error (.synth e) := by
  have hne : splitTextIntoChunks text 1600 ≠ [] := by
    intro h
    rw [h] at hk
    simp at hk
  obtain ⟨h1, h2⟩ := synthLoop_fail synth (buildInstructions style)
    (splitTextIntoChunks text 1600) 0 k e hk
    (by
      intro j hj
      rw [Nat.zero_add]
      exact hsucc j hj)
    (by
      rw [Nat.zero_add]
      exact hfail)
  simp only [synthesizeChapter, if_neg hne]
  refine ⟨?_, ?_⟩
  · dsimp only
    rw [h1]
    simp
  · dsimp only
    rw [h2]

/-- Witness for the amended C2: on the one-chunk text `"hi"` with an
always-failing provider, the single call 0 is issued and the provider
error propagates. -/
theorem synthesizeChapter_abort_witness :
    0 < (splitTextIntoChunks (jstr "hi") 1600).length ∧
      (synthesizeChapter (ε := Nat) (fun _ _ => .error 5) 3 (jstr "hi")
          TtsStyle.narrative).calls.map Prod.fst = List.range 1 ∧
      (synthesizeChapter (ε := Nat) (fun _ _ => .error 5) 3 (jstr "hi")
          TtsStyle.narrative).result = .error (.synth 5) :=
  ⟨by decide,
    (synthesizeChapter_abort (ε := Nat) (fun _ _ => .error 5) 3 (jstr "hi")
      TtsStyle.narrative 0 5 (by decide)
      (fun j hj => absurd hj (Nat.not_lt_zero j)) rfl).1,
    (synthesizeChapter_abort (ε := Nat) (fun _ _ => .error 5) 3 (jstr "hi")
      TtsStyle.narrative 0 5 (by decide)
      (fun j hj => absurd hj (Nat.not_lt_zero j)) rfl).2⟩

/-- **Claim C2, counterexample.**  The surfaced failure does *not* report
the failing chunk's index, nor the buffers already produced: the code
lets the provider's exception propagate and discards the local buffer
array.  On the same two-chunk chapter text, a provider failing at chunk 0
(no buffers produced) and a provider failing at chunk 1 (one buffer
produced) surface *identical* results, so no caller can recover the
failing index `k` or the `k` successful buffers from what
`synthesizeChapter` returns. -/
theorem synthesizeChapter_failure_unreported_cx :
    (synthesizeChapter (ε := Unit) (fun _ _ => .error ()) 0
        (List.replicate 6401 'A') TtsStyle.narrative).result =
      (synthesizeChapter (ε := Unit) (fun i _ => if i = 0 then .ok [] else .error ()) 0
        (List.replicate 6401 'A') TtsStyle.narrative).result ∧
      (synthesizeChapter (ε := Unit) (fun _ _ => .error ()) 0
        (List.replicate 6401 'A') TtsStyle.narrative).calls.map Prod.fst = [0] ∧
      (synthesizeChapter (ε := Unit) (fun i _ => if i = 0 then .ok [] else .error ()) 0
        (List.replicate 6401 'A') TtsStyle.narrative).calls.map Prod.fst = [0, 1] ∧
      (synthesizeChapter (ε := Unit) (fun _ _ => .error ()) 0
        (List.replicate 6401 'A') TtsStyle.narrative).result =
        .error (.synth ()) := by
  have hch := splitTextIntoChunks_bigA
  have hA : synthesizeChapter (ε := Unit) (fun _ _ => .error ()) 0
      (List.replicate 6401 'A') TtsStyle.narrative =
      ⟨[(0, buildInstructions TtsStyle.narrative ++ jstr "\n\n" ++
          List.replicate 6400 'A')], .error (.synth ())⟩ := by
    simp only [synthesizeChapter]
    rw [hch, if_neg (List.cons_ne_nil _ _)]
    rfl
  have hB : synthesizeChapter (ε := Unit)
      (fun i _ => if i = 0 then .ok [] else .error ()) 0
      (List.replicate 6401 'A') TtsStyle.narrative =
      ⟨[(0, buildInstructions TtsStyle.narrative ++ jstr "\n\n" ++
          List.replicate 6400 'A'),
        (1, buildInstructions TtsStyle.narrative ++ jstr "\n\n" ++ ['A'])],
        .error (.synth ())⟩ := by
    simp only [synthesizeChapter]
    rw [hch, if_neg (List.cons_ne_nil _ _)]
    rfl
  rw [hA, hB]
  refine ⟨rfl, rfl, rfl, rfl⟩

/-! ## Claim C3: when the blocking fallback is used -/

/-- Whitespace characters are fixed points of `toLowerCase` (no whitespace
code point is an upper-case letter). -/
theorem jsToLower_of_ws {c : Char} (h : isJsWs c = true) : jsToLower c = c := by
  have hN : c.toNat = 32 ∨ c.toNat = 9 ∨ c.toNat = 10 ∨ c.toNat = 0xb ∨
      c.toNat = 0xc ∨ c.toNat = 13 ∨ c.toNat = 0xa0 ∨ c.toNat = 0x1680 ∨
      (0x2000 ≤ c.toNat ∧ c.toNat ≤ 0x200a) ∨ c.toNat = 0x2028 ∨
      c.toNat = 0x2029 ∨ c.toNat = 0x202f ∨ c.toNat = 0x205f ∨
      c.toNat = 0x3000 ∨ c.toNat = 0xfeff := by
    simp only [isJsWs, decide_eq_true_eq] at h
    rcases h with h|h|h|h|h|h|h|h|h|h|h|h|h|h|h <;>
      first
        | (subst h; decide)
        | omega
  have hne : ∀ d : Char, d.toNat ≠ c.toNat → ¬(c = d) := by
    intro d hd he
    exact hd (by rw [he])
  unfold jsToLower
  rw [if_neg (by
      intro ⟨h1, h2⟩
      have g1 : 65 ≤ c.toNat := h1
      have g2 : c.toNat ≤ 90 := h2
      omega),
    if_neg (hne 'Á' (by rw [show ('Á').toNat = 0xc1 from rfl]; omega)),
    if_neg (hne 'É' (by rw [show ('É').toNat = 0xc9 from rfl]; omega)),
    if_neg (hne 'Í' (by rw [show ('Í').toNat = 0xcd from rfl]; omega)),
    if_neg (hne 'Ó' (by rw [show ('Ó').toNat = 0xd3 from rfl]; omega)),
    if_neg (hne 'Ú' (by rw [show ('Ú').toNat = 0xda from rfl]; omega)),
    if_neg (hne 'Ü' (by rw [show ('Ü').toNat = 0xdc from rfl]; omega)),
    if_neg (hne 'Ñ' (by rw [show ('Ñ').toNat = 0xd1 from rfl]; omega))]

/-- A character that lower-cases to a non-whitespace character is not
whitespace. -/
theorem not_ws_of_jsToLower {c t : Char} (hl : jsToLower c = t)
    (ht : isJsWs t = false) : isJsWs c = false := by
  by_contra h
  have hc : isJsWs c = true := by
    revert h
    cases isJsWs c <;> simp
  rw [jsToLower_of_ws hc] at hl
  rw [hl] at hc
  rw [hc] at ht
  exact Bool.noConfusion ht

theorem dropWhile_append_single {p : Char → Bool} {x : Char} (hx : p x = false) :
    ∀ (a : JsStr), (a ++ [x]).dropWhile p = a.dropWhile p ++ [x] := by
  intro a
  induction a with
  | nil => simp [List.dropWhile_cons, hx]
  | cons c t ih =>
    by_cases h : p c
    · simp [List.dropWhile_cons, h, ih]
    · simp [List.dropWhile_cons, h]

/-- A non-whitespace head survives `trimLeft`. -/
theorem trimLeft_cons_of_not_ws {c : Char} (hc : isJsWs c = false) (l : JsStr) :
    trimLeft (c :: l) = c :: l := by
  unfold trimLeft
  rw [List.dropWhile_cons, if_neg (by simp [hc])]

/-- A non-whitespace head survives `trimRight`. -/
theorem trimRight_cons_of_not_ws {c : Char} (hc : isJsWs c = false) (l : JsStr) :
    trimRight (c :: l) = c :: trimRight l := by
  unfold trimRight trimLeft
  rw [List.reverse_cons, dropWhile_append_single hc]
  simp

/-- A non-whitespace head survives `trim`. -/
theorem trim_cons_of_not_ws {c : Char} (hc : isJsWs c = false) (l : JsStr) :
    trim (c :: l) = c :: trimRight l := by
  unfold trim
  rw [trimLeft_cons_of_not_ws hc, trimRight_cons_of_not_ws hc]

/-- Trimming a string with eight non-whitespace lead characters keeps
them and right-trims the rest. -/
theorem trim_cons8 {c0 c1 c2 c3 c4 c5 c6 c7 : Char}
    (n0 : isJsWs c0 = false) (n1 : isJsWs c1 = false) (n2 : isJsWs c2 = false)
    (n3 : isJsWs c3 = false) (n4 : isJsWs c4 = false) (n5 : isJsWs c5 = false)
    (n6 : isJsWs c6 = false) (n7 : isJsWs c7 = false) (X : JsStr) :
    trim (c0 :: c1 :: c2 :: c3 :: c4 :: c5 :: c6 :: c7 :: X) =
      c0 :: c1 :: c2 :: c3 :: c4 :: c5 :: c6 :: c7 :: trimRight X := by
  rw [trim_cons_of_not_ws n0, trimRight_cons_of_not_ws n1,
    trimRight_cons_of_not_ws n2, trimRight_cons_of_not_ws n3,
    trimRight_cons_of_not_ws n4, trimRight_cons_of_not_ws n5,
    trimRight_cons_of_not_ws n6, trimRight_cons_of_not_ws n7]

/-- A matched heading, after trimming, still lower-cases to a string
starting with `capítulo`/`capitulo`, and is non-empty: the 8 matched
pattern letters are not whitespace, so the trim cannot remove them. -/
theorem matchChapterAt_capLower {l m r : JsStr} (h : matchChapterAt l = some (m, r)) :
    startsWithCapLower (trim m) = true ∧ trim m ≠ [] := by
  match l with
  | [] => simp [matchChapterAt] at h
  | [a] | [a,b] | [a,b,c] | [a,b,c,d] | [a,b,c,d,e] | [a,b,c,d,e,f]
  | [a,b,c,d,e,f,g] => simp [matchChapterAt] at h
  | c0 :: c1 :: c2 :: c3 :: c4 :: c5 :: c6 :: c7 :: rest =>
    simp only [matchChapterAt] at h
    split at h
    · rename_i hcond
      obtain ⟨h0b, h1b, h2b, h3, h4b, h5b, h6b, h7b⟩ := hcond
      have h0 : jsToLower c0 = 'c' := by simpa [ciIs] using h0b
      have h1 : jsToLower c1 = 'a' := by simpa [ciIs] using h1b
      have h2 : jsToLower c2 = 'p' := by simpa [ciIs] using h2b
      have h4 : jsToLower c4 = 't' := by simpa [ciIs] using h4b
      have h5 : jsToLower c5 = 'u' := by simpa [ciIs] using h5b
      have h6 : jsToLower c6 = 'l' := by simpa [ciIs] using h6b
      have h7 : jsToLower c7 = 'o' := by simpa [ciIs] using h7b
      split at h
      · simp at h
      · split at h
        · simp at h
        · simp only [Option.some.injEq, Prod.mk.injEq] at h
          obtain ⟨hm, _⟩ := h
          have n0 : isJsWs c0 = false := not_ws_of_jsToLower h0 rfl
          have n1 : isJsWs c1 = false := not_ws_of_jsToLower h1 rfl
          have n2 : isJsWs c2 = false := not_ws_of_jsToLower h2 rfl
          have n4 : isJsWs c4 = false := not_ws_of_jsToLower h4 rfl
          have n5 : isJsWs c5 = false := not_ws_of_jsToLower h5 rfl
          have n6 : isJsWs c6 = false := not_ws_of_jsToLower h6 rfl
          have n3 : isJsWs c3 = false := by
            rcases h3 with h3 | h3 | h3 | h3 <;> (subst h3; rfl)
          have n7 : isJsWs c7 = false := not_ws_of_jsToLower h7 rfl
          subst hm
          have key : ∀ X : JsStr,
              startsWithCapLower (trim (c0 :: c1 :: c2 :: c3 :: c4 :: c5 :: c6 :: c7 :: X))
                = true := by
            intro X
            rw [trim_cons8 n0 n1 n2 n3 n4 n5 n6 n7]
            unfold startsWithCapLower
            simp only [List.map_cons, decide_eq_true_eq]
            rw [h0, h1, h2, h4, h5, h6, h7,
              show jstr "capítulo" = ['c','a','p','í','t','u','l','o'] from rfl,
              show jstr "capitulo" = ['c','a','p','i','t','u','l','o'] from rfl]
            rcases h3 with h3 | h3 | h3 | h3 <;> subst h3 <;>
              simp [List.isPrefixOf, jsToLower]
          have key2 : ∀ X : JsStr,
              trim (c0 :: c1 :: c2 :: c3 :: c4 :: c5 :: c6 :: c7 :: X) ≠ [] := by
            intro X
            rw [trim_cons8 n0 n1 n2 n3 n4 n5 n6 n7]
            simp
          exact ⟨key _, key2 _⟩
    · simp at h

/-- Every heading-tagged piece of the split scan keeps a
`capítulo`/`capitulo` prefix after trimming and is not whitespace-only. -/
theorem splitChaptersGo_true_pieces :
    ∀ (l : JsStr) (skip : Nat) (acc : JsStr) (pr : Bool × JsStr),
      pr ∈ splitChaptersGo skip acc l → pr.1 = true →
      startsWithCapLower (trim pr.2) = true ∧ trim pr.2 ≠ [] := by
  intro l
  induction l with
  | nil =>
    intro skip acc pr hpr ht
    simp only [splitChaptersGo, List.mem_singleton] at hpr
    subst hpr
    simp at ht
  | cons c t ih =>
    intro skip acc pr hpr ht
    match skip with
    | n + 1 =>
      exact ih n acc pr hpr ht
    | 0 =>
      rw [show splitChaptersGo 0 acc (c :: t) =
          match matchChapterAt (c :: t) with
          | some (m, _) =>
            (false, acc.reverse) :: (true, m) :: splitChaptersGo (m.length - 1) [] t
          | none => splitChaptersGo 0 (c :: acc) t from rfl] at hpr
      cases hm : matchChapterAt (c :: t) with
      | none =>
        rw [hm] at hpr
        exact ih 0 (c :: acc) pr hpr ht
      | some pr2 =>
        obtain ⟨m, r⟩ := pr2
        rw [hm] at hpr
        rcases List.mem_cons.mp hpr with h | h
        · subst h
          simp at ht
        · rcases List.mem_cons.mp h with h2 | h2
          · subst h2
            exact matchChapterAt_capLower hm
          · exact ih (m.length - 1) [] pr h2 ht

/-- If the scan finds no heading match, it returns the single piece
consisting of the whole remaining input. -/
theorem splitChaptersGo_no_true :
    ∀ (l : JsStr) (acc : JsStr),
      ((splitChaptersGo 0 acc l).filter (fun pr => pr.1)).length = 0 →
      splitChaptersGo 0 acc l = [(false, acc.reverse ++ l)] := by
  intro l
  induction l with
  | nil =>
    intro acc _
    simp [splitChaptersGo]
  | cons c t ih =>
    intro acc h
    rw [show splitChaptersGo 0 acc (c :: t) =
        match matchChapterAt (c :: t) with
        | some (m, _) =>
          (false, acc.reverse) :: (true, m) :: splitChaptersGo (m.length - 1) [] t
        | none => splitChaptersGo 0 (c :: acc) t from rfl] at h ⊢
    cases hm : matchChapterAt (c :: t) with
    | none =>
      rw [hm] at h
      dsimp only at h ⊢
      rw [ih (c :: acc) h]
      simp
    | some pr2 =>
      obtain ⟨m, r⟩ := pr2
      rw [hm] at h
      dsimp only at h
      simp [List.filter_cons] at h

/-- `countP` splits along any second predicate. -/
theorem countP_split {α : Type} (p q : α → Bool) (l : List α) :
    l.countP p =
      l.countP (fun a => p a && q a) + l.countP (fun a => p a && !q a) := by
  induction l with
  | nil => rfl
  | cons x xs ih =>
    rw [List.countP_cons, List.countP_cons, List.countP_cons, ih]
    by_cases hp : p x <;> by_cases hq : q x <;> simp [hp, hq] <;> omega

/-- The number of retained (not whitespace-only) pieces is the number of
heading matches plus the number of non-heading pieces with content. -/
theorem chapterParts_length_eq (t : JsStr) :
    (chapterParts t).length =
      countChapterMatches t +
        ((splitChaptersGo 0 [] t).filter
          (fun pr => !pr.1 && !(trim pr.2).isEmpty)).length := by
  unfold chapterParts splitChapterPieces countChapterMatches
  rw [← List.countP_eq_length_filter, ← List.countP_eq_length_filter,
    ← List.countP_eq_length_filter, List.countP_map]
  simp only [Function.comp_def]
  rw [countP_split (fun pr : Bool × JsStr => !(trim pr.2).isEmpty) (fun pr => pr.1)]
  have e1 : (splitChaptersGo 0 [] t).countP
      (fun pr => !(trim pr.2).isEmpty && pr.1) =
      (splitChaptersGo 0 [] t).countP (fun pr => pr.1) := by
    apply List.countP_congr
    intro pr hpr
    by_cases hb : pr.1
    · obtain ⟨_, hne⟩ := splitChaptersGo_true_pieces t 0 [] pr hpr hb
      simp [hb, hne, List.isEmpty_iff]
    · simp [hb]
  have e2 : (splitChaptersGo 0 [] t).countP
      (fun pr => !(trim pr.2).isEmpty && !pr.1) =
      (splitChaptersGo 0 [] t).countP (fun pr => !pr.1 && !(trim pr.2).isEmpty) := by
    apply List.countP_congr
    intro pr hpr
    by_cases hb : pr.1 <;> simp [hb]
  rw [e1, e2]

/-- The split scan with no match yields at most one retained piece. -/
theorem chapterParts_length_le_one_of_no_match (t : JsStr)
    (h : countChapterMatches t = 0) : (chapterParts t).length ≤ 1 := by
  unfold countChapterMatches at h
  have := splitChaptersGo_no_true t [] h
  unfold chapterParts splitChapterPieces
  rw [this]
  simp only [List.map_cons, List.map_nil, List.reverse_nil, List.nil_append]
  cases hb : !(trim t).isEmpty <;> simp [List.filter_cons, hb]

/-- The retained-piece count is at most 1 exactly under the fallback
condition phrased on matches: no match at all, or one match with only
whitespace outside it. -/
theorem chapterParts_le_one_iff (t : JsStr) :
    (chapterParts t).length ≤ 1 ↔
      (countChapterMatches t = 0 ∨
        (countChapterMatches t = 1 ∧
          ∀ pr ∈ splitChaptersGo 0 [] t, pr.1 = false → trim pr.2 = [])) := by
  constructor
  · intro h
    rw [chapterParts_length_eq] at h
    match hc : countChapterMatches t with
    | 0 => exact Or.inl rfl
    | 1 =>
      refine Or.inr ⟨rfl, ?_⟩
      rw [hc] at h
      have hz : ((splitChaptersGo 0 [] t).filter
          (fun pr => !pr.1 && !(trim pr.2).isEmpty)).length = 0 := by omega
      rw [← List.countP_eq_length_filter, List.countP_eq_zero] at hz
      intro pr hpr hf
      have hno := hz pr hpr
      rcases Bool.eq_false_or_eq_true ((trim pr.2).isEmpty) with hb | hb
      · exact List.isEmpty_iff.mp hb
      · exact absurd (by simp [hf, hb]) hno
    | n + 2 =>
      rw [hc] at h
      omega
  · intro h
    rcases h with h | ⟨h1, h2⟩
    · exact chapterParts_length_le_one_of_no_match t h
    · rw [chapterParts_length_eq, h1]
      have hz : ((splitChaptersGo 0 [] t).filter
          (fun pr => !pr.1 && !(trim pr.2).isEmpty)).length = 0 := by
        rw [← List.countP_eq_length_filter, List.countP_eq_zero]
        intro pr hpr
        by_cases hb : pr.1
        · simp [hb]
        · have := h2 pr hpr (by simpa using hb)
          simp [hb, this]
      omega

/-- `updateLast` with a title-preserving function preserves the list of
titles. -/
theorem updateLast_titles (f : ParsedChapter → ParsedChapter)
    (hf : ∀ ch, (f ch).title = ch.title) :
    ∀ l : List ParsedChapter, (updateLast f l).map (fun ch => ch.title) =
      l.map (fun ch => ch.title) := by
  intro l
  induction l with
  | nil => rfl
  | cons x xs ih =>
    cases xs with
    | nil => simp [updateLast, hf]
    | cons y ys =>
      rw [show updateLast f (x :: y :: ys) = x :: updateLast f (y :: ys) from rfl]
      simp only [List.map_cons] at ih ⊢
      rw [ih]

/-- If some accumulated chapter has a title, so does some chapter of any
`updateLast` image. -/
theorem exists_titled_updateLast (f : ParsedChapter → ParsedChapter)
    (hf : ∀ ch, (f ch).title = ch.title) {l : List ParsedChapter}
    (h : ∃ ch ∈ l, ch.title.isSome = true) :
    ∃ ch ∈ updateLast f l, ch.title.isSome = true := by
  obtain ⟨ch, hm, ht⟩ := h
  have : ch.title ∈ (updateLast f l).map (fun ch => ch.title) := by
    rw [updateLast_titles f hf]
    exact List.mem_map_of_mem _ hm
  obtain ⟨ch2, hm2, he⟩ := List.mem_map.mp this
  exact ⟨ch2, hm2, by rw [he]; exact ht⟩

/-- If some piece of the walk's input qualifies via the
`capítulo`/`capitulo` prefix, or a titled chapter was already
accumulated, the walk's output contains a titled chapter. -/
theorem walkParts_titled (parts : List JsStr) (idx : Nat) (chs : List ParsedChapter) :
    ((∃ p ∈ parts, startsWithCapLower (trim p) = true) ∨
      (∃ ch ∈ chs, ch.title.isSome = true)) →
    ∃ ch ∈ walkParts parts idx chs, ch.title.isSome = true := by
  induction parts, idx, chs using walkParts.induct with
  | case1 idx chs =>
    intro h
    rcases h with h | h
    · simp at h
    · simpa [walkParts] using h
  | case2 p idx chs mt hq =>
    intro _
    have hq2 : startsWithCapLower (trim p) = true ∨ (trim p).length < 80 := hq
    rw [show walkParts [p] idx chs = chs ++ [⟨idx, some (trim p), []⟩] from by
      rw [walkParts.eq_def]
      dsimp only
      rw [if_pos hq2]]
    exact ⟨⟨idx, some (trim p), []⟩, by simp⟩
  | case3 p idx chs mt hq b rest2 ih =>
    intro _
    have hq2 : startsWithCapLower (trim p) = true ∨ (trim p).length < 80 := hq
    rw [show walkParts (p :: b :: rest2) idx chs =
        walkParts rest2 (idx + 1) (chs ++ [⟨idx, some (trim p), trim b⟩]) from by
      rw [walkParts.eq_def]
      dsimp only
      rw [if_pos hq2]]
    exact ih (Or.inr ⟨⟨idx, some (trim p), trim b⟩, by simp⟩)
  | case4 p rest idx chs mt hq hemp ih =>
    intro h
    have hq2 : ¬(startsWithCapLower (trim p) = true ∨ (trim p).length < 80) := hq
    rw [show walkParts (p :: rest) idx chs = walkParts rest idx [⟨0, none, trim p⟩] from by
      rw [walkParts.eq_def]
      dsimp only
      rw [if_neg hq2, if_pos hemp]]
    apply ih
    rcases h with ⟨p2, hp2, hcap⟩ | ⟨ch, hch, _⟩
    · rcases List.mem_cons.mp hp2 with he | he
      · subst he
        exact absurd (Or.inl hcap) hq2
      · exact Or.inl ⟨p2, he, hcap⟩
    · rw [List.isEmpty_iff.mp hemp] at hch
      simp at hch
  | case5 p rest idx chs mt hq hemp ih =>
    intro h
    have hq2 : ¬(startsWithCapLower (trim p) = true ∨ (trim p).length < 80) := hq
    rw [show walkParts (p :: rest) idx chs =
        walkParts rest idx
          (updateLast (fun ch => ⟨ch.index, ch.title, ch.text ++ jstr "\n\n" ++ trim p⟩)
            chs) from by
      rw [walkParts.eq_def]
      dsimp only
      rw [if_neg hq2, if_neg hemp]]
    apply ih
    rcases h with ⟨p2, hp2, hcap⟩ | htit
    · rcases List.mem_cons.mp hp2 with he | he
      · subst he
        exact absurd (Or.inl hcap) hq2
      · exact Or.inl ⟨p2, he, hcap⟩
    · exact Or.inr (exists_titled_updateLast
        (fun ch => ⟨ch.index, ch.title, ch.text ++ jstr "\n\n" ++ trim p⟩)
        (fun ch => rfl) htit)

/-- Every chapter the blocking fallback produces is untitled. -/
theorem blockGo_untitled :
    ∀ (l : JsStr) (idx cnt : Nat) (acc : JsStr),
      ∀ ch ∈ blockGo idx cnt acc l, ch.title = none := by
  intro l
  induction l with
  | nil =>
    intro idx cnt acc ch hch
    simp only [blockGo] at hch
    split at hch
    · simp at hch
    · simp only [List.mem_singleton] at hch
      subst hch
      rfl
  | cons c t ih =>
    intro idx cnt acc ch hch
    match cnt with
    | 0 =>
      rw [show blockGo idx 0 acc (c :: t) =
          ⟨idx, none, acc.reverse⟩ :: blockGo (idx + 1) 4999 [c] t from rfl] at hch
      rcases List.mem_cons.mp hch with h | h
      · subst h
        rfl
      · exact ih (idx + 1) 4999 [c] ch h
    | cnt + 1 =>
      exact ih idx cnt (c :: acc) ch hch

/-- Every chapter of `blockChapters` is untitled. -/
theorem blockChapters_untitled (idx : Nat) (text : JsStr) :
    ∀ ch ∈ blockChapters idx text, ch.title = none := by
  cases text with
  | nil => simp [blockChapters]
  | cons c t =>
    rw [show blockChapters idx (c :: t) = blockGo idx 4999 [c] t from rfl]
    exact blockGo_untitled t idx 4999 [c]

/-- The heading regex cannot match at a character that does not lower-case
to `c`. -/
theorem matchChapterAt_none_head {c : Char} (hc : jsToLower c ≠ 'c') (t : JsStr) :
    matchChapterAt (c :: t) = none := by
  match t with
  | [] => rfl
  | [a] => rfl
  | [a,b] => rfl
  | [a,b,d] => rfl
  | [a,b,d,e] => rfl
  | [a,b,d,e,f] => rfl
  | [a,b,d,e,f,g] => rfl
  | a :: b :: d :: e :: f :: g :: h2 :: rest =>
    simp only [matchChapterAt]
    rw [if_neg (by
      intro hcond
      exact hc (by simpa [ciIs] using hcond.1))]

/-- The split scan finds nothing in a block of `'a'`s. -/
theorem splitChaptersGo_replicate_a (n : Nat) :
    ∀ acc, splitChaptersGo 0 acc (List.replicate n 'a') =
      [(false, acc.reverse ++ List.replicate n 'a')] := by
  induction n with
  | zero => intro acc; simp [splitChaptersGo]
  | succ n ih =>
    intro acc
    rw [show List.replicate (n + 1) 'a' = 'a' :: List.replicate n 'a' from rfl]
    rw [show splitChaptersGo 0 acc ('a' :: List.replicate n 'a') =
        match matchChapterAt ('a' :: List.replicate n 'a') with
        | some (m, _) =>
          (false, acc.reverse) :: (true, m) ::
            splitChaptersGo (m.length - 1) [] (List.replicate n 'a')
        | none => splitChaptersGo 0 ('a' :: acc) (List.replicate n 'a') from rfl]
    rw [matchChapterAt_none_head (by decide) (List.replicate n 'a')]
    rw [ih ('a' :: acc)]
    simp

/-- The blocking fallback windows, as a standalone slicing function used
to reason about `blockGo`. -/
def blockWindows (idx : Nat) (l : JsStr) : List ParsedChapter :=
  if h : l = [] then []
  else ⟨idx, none, l.take 5000⟩ :: blockWindows (idx + 1) (l.drop 5000)
termination_by l.length
decreasing_by
  simp only [List.length_drop]
  have : 0 < l.length := List.length_pos.mpr h
  omega

/-- `blockGo` computes the 5000-character windows of the pending window
followed by the remaining input. -/
theorem blockGo_eq_windows :
    ∀ (l : JsStr) (idx cnt : Nat) (acc : JsStr), acc ≠ [] →
      cnt + acc.length = 5000 →
      blockGo idx cnt acc l = blockWindows idx (acc.reverse ++ l) := by
  intro l
  induction l with
  | nil =>
    intro idx cnt acc hne hcnt
    have hlen : 0 < acc.length := List.length_pos.mpr hne
    rw [show blockGo idx cnt acc [] =
        if acc = [] then [] else [⟨idx, none, acc.reverse⟩] from by
      cases cnt <;> rfl]
    rw [if_neg hne, List.append_nil, blockWindows]
    rw [dif_neg (by simpa using hne)]
    rw [List.take_of_length_le (by rw [List.length_reverse]; omega)]
    rw [List.drop_eq_nil_of_le (by rw [List.length_reverse]; omega), blockWindows]
    simp
  | cons c t ih =>
    intro idx cnt acc hne hcnt
    match cnt with
    | 0 =>
      have hlen : 0 < acc.length := List.length_pos.mpr hne
      rw [show blockGo idx 0 acc (c :: t) =
          ⟨idx, none, acc.reverse⟩ :: blockGo (idx + 1) 4999 [c] t from rfl]
      rw [ih (idx + 1) 4999 [c] (by simp) (by simp)]
      rw [show blockWindows idx (acc.reverse ++ c :: t) =
          ⟨idx, none, (acc.reverse ++ c :: t).take 5000⟩ ::
            blockWindows (idx + 1) ((acc.reverse ++ c :: t).drop 5000) from by
        rw [blockWindows]
        rw [dif_neg (by simp)]]
      rw [show (acc.reverse ++ c :: t).take 5000 = acc.reverse from by
        rw [List.take_append_of_le_length (by rw [List.length_reverse]; omega)]
        rw [List.take_of_length_le (by rw [List.length_reverse]; omega)]]
      rw [show (acc.reverse ++ c :: t).drop 5000 = c :: t from by
        rw [List.drop_append_of_le_length (by rw [List.length_reverse]; omega)]
        rw [List.drop_eq_nil_of_le (by rw [List.length_reverse]; omega), List.nil_append]]
      simp
    | cnt + 1 =>
      rw [show blockGo idx (cnt + 1) acc (c :: t) = blockGo idx cnt (c :: acc) t from rfl]
      rw [ih idx cnt (c :: acc) (by simp) (by simp at hcnt ⊢; omega)]
      simp [List.append_assoc]

/-- `blockChapters` equals the standalone window slicing. -/
theorem blockChapters_eq_windows (idx : Nat) (text : JsStr) :
    blockChapters idx text = blockWindows idx text := by
  cases text with
  | nil => rw [show blockChapters idx [] = [] from rfl, blockWindows]; simp
  | cons c t =>
    rw [show blockChapters idx (c :: t) = blockGo idx 4999 [c] t from rfl,
      blockGo_eq_windows t idx 4999 [c] (by simp) (by simp)]
    rfl

/-- CRLF replacement leaves a leading `'a'` in place. -/
theorem replaceCrLf_cons_a (t : JsStr) : replaceCrLf ('a' :: t) = 'a' :: replaceCrLf t := by
  cases t with
  | nil => rfl
  | cons c t2 => rfl

/-- CRLF replacement fixes a block of `'a'`s. -/
theorem replaceCrLf_replicate_a :
    ∀ n, replaceCrLf (List.replicate n 'a') = List.replicate n 'a' := by
  intro n
  induction n with
  | zero => rfl
  | succ n ih =>
    rw [show List.replicate (n + 1) 'a' = 'a' :: List.replicate n 'a' from rfl,
      replaceCrLf_cons_a, ih]

/-- A nonzero block of `'a'`s is a nonempty string. -/
theorem replicate_a_ne_nil {n : Nat} (hn : n ≠ 0) :
    (List.replicate n 'a' : JsStr) ≠ [] := by
  intro h
  have := congrArg List.length h
  simp only [List.length_replicate, List.length_nil] at this
  exact hn this

/-- Trimming fixes a nonzero block of `'a'`s. -/
theorem trim_replicate_a (n : Nat) (hn : n ≠ 0) :
    trim (List.replicate n 'a') = List.replicate n 'a' := by
  match n with
  | 0 => exact absurd rfl hn
  | m + 1 =>
    have hdrop : List.dropWhile isJsWs (List.replicate (m + 1) 'a') =
        List.replicate (m + 1) 'a' := by
      rw [show List.replicate (m + 1) 'a' = 'a' :: List.replicate m 'a' from rfl,
        List.dropWhile_cons]
      rw [show isJsWs 'a' = false from rfl]
      simp only [Bool.false_eq_true, if_false]
    unfold trim trimRight trimLeft
    rw [hdrop, List.reverse_replicate, hdrop, List.reverse_replicate]

/-- The filtered split pieces of a nonzero block of `'a'`s: the single
piece holding the whole block. -/
theorem chapterParts_replicate_a (n : Nat) (hn : n ≠ 0) :
    chapterParts (List.replicate n 'a') = [List.replicate n 'a'] := by
  unfold chapterParts splitChapterPieces
  rw [splitChaptersGo_replicate_a n []]
  simp only [List.reverse_nil, List.nil_append, List.map_cons, List.map_nil]
  rw [List.filter_cons]
  rw [show trim (List.replicate n 'a') = List.replicate n 'a' from trim_replicate_a n hn]
  rw [show (List.replicate n 'a' : JsStr).isEmpty = false from by
    rw [List.isEmpty_eq_false]
    exact replicate_a_ne_nil hn]
  rfl

/-- `splitTextIntoChapters` hits the blocking fallback exactly under
`fallbackCondition`: no heading match, or one heading match with only
whitespace outside it. -/
theorem splitTextIntoChapters_eq_block_iff (s : JsStr) :
    splitTextIntoChapters s = blockChapters 0 (replaceCrLf s) ↔ fallbackCondition s := by
  have hdef : splitTextIntoChapters s =
      if (chapterParts (replaceCrLf s)).length > 1
      then walkParts (chapterParts (replaceCrLf s)) 0 []
      else blockChapters 0 (replaceCrLf s) := rfl
  constructor
  · intro h
    unfold fallbackCondition
    rw [← chapterParts_le_one_iff]
    by_contra hgt
    push_neg at hgt
    have hw : splitTextIntoChapters s = walkParts (chapterParts (replaceCrLf s)) 0 [] := by
      rw [hdef, if_pos hgt]
    have hm0 : countChapterMatches (replaceCrLf s) ≠ 0 := by
      intro h0
      have := chapterParts_length_le_one_of_no_match (replaceCrLf s) h0
      omega
    have hfl : 0 < ((splitChaptersGo 0 [] (replaceCrLf s)).filter
        (fun pr => pr.1)).length := by
      unfold countChapterMatches at hm0
      omega
    obtain ⟨pr, hprf⟩ := List.exists_mem_of_length_pos hfl
    have hprmem := List.mem_filter.mp hprf
    have hpr1 : pr.1 = true := by simpa using hprmem.2
    obtain ⟨hcap, hne⟩ :=
      splitChaptersGo_true_pieces (replaceCrLf s) 0 [] pr hprmem.1 hpr1
    have hmem2 : pr.2 ∈ chapterParts (replaceCrLf s) := by
      unfold chapterParts splitChapterPieces
      rw [List.mem_filter]
      refine ⟨List.mem_map_of_mem _ hprmem.1, ?_⟩
      simp [List.isEmpty_iff, hne]
    obtain ⟨ch, hch, hsome⟩ :=
      walkParts_titled (chapterParts (replaceCrLf s)) 0 [] (Or.inl ⟨pr.2, hmem2, hcap⟩)
    rw [← hw, h] at hch
    have hnone := blockChapters_untitled 0 (replaceCrLf s) ch hch
    rw [hnone] at hsome
    simp at hsome
  · intro h
    unfold fallbackCondition at h
    have hle : (chapterParts (replaceCrLf s)).length ≤ 1 :=
      (chapterParts_le_one_iff (replaceCrLf s)).mpr h
    rw [hdef, if_neg (by omega)]

/-- The 12000-character no-marker scenario: three untitled blocks of
lengths 5000, 5000, 2000 at indices 0, 1, 2. -/
theorem splitTextIntoChapters_replicate_a :
    splitTextIntoChapters (List.replicate 12000 'a') =
      [⟨0, none, List.replicate 5000 'a'⟩,
       ⟨1, none, List.replicate 5000 'a'⟩,
       ⟨2, none, List.replicate 2000 'a'⟩] := by
  have hdef : splitTextIntoChapters (List.replicate 12000 'a') =
      if (chapterParts (replaceCrLf (List.replicate 12000 'a'))).length > 1
      then walkParts (chapterParts (replaceCrLf (List.replicate 12000 'a'))) 0 []
      else blockChapters 0 (replaceCrLf (List.replicate 12000 'a')) := rfl
  rw [hdef, replaceCrLf_replicate_a 12000,
    chapterParts_replicate_a 12000 (by norm_num)]
  rw [if_neg (by norm_num)]
  rw [blockChapters_eq_windows]
  rw [blockWindows]
  rw [dif_neg (replicate_a_ne_nil (by norm_num))]
  rw [List.take_replicate, List.drop_replicate]
  rw [show min 5000 12000 = 5000 from by norm_num,
    show 12000 - 5000 = 7000 from by norm_num]
  rw [blockWindows]
  rw [dif_neg (replicate_a_ne_nil (by norm_num))]
  rw [List.take_replicate, List.drop_replicate]
  rw [show min 5000 7000 = 5000 from by norm_num,
    show 7000 - 5000 = 2000 from by norm_num]
  rw [blockWindows]
  rw [dif_neg (replicate_a_ne_nil (by norm_num))]
  rw [List.take_replicate, List.drop_replicate]
  rw [show min 5000 2000 = 2000 from by norm_num,
    show 2000 - 5000 = 0 from by norm_num]
  rw [show (List.replicate 0 'a' : JsStr) = [] from rfl]
  rw [blockWindows]
  rw [dif_pos rfl]

/-- C3 (corrected): `splitTextIntoChapters` uses the fixed-size blocking
fallback exactly when the filtered split retains at most one piece —
either the heading regex finds no match at all, or it finds exactly one
match and everything outside that match is whitespace.  This is strictly
stronger than "fewer than two heading matches": a single heading followed
by body text has one match yet takes the heading walk, not the fallback.
The 12000-character no-marker scenario does fall back and yields three
untitled chapters of lengths 5000, 5000, 2000 at indices 0, 1, 2. -/
theorem splitTextIntoChapters_fallback :
    (∀ s : JsStr,
      splitTextIntoChapters s = blockChapters 0 (replaceCrLf s) ↔ fallbackCondition s) ∧
    splitTextIntoChapters (List.replicate 12000 'a') =
      [⟨0, none, List.replicate 5000 'a'⟩,
       ⟨1, none, List.replicate 5000 'a'⟩,
       ⟨2, none, List.replicate 2000 'a'⟩] :=
  ⟨splitTextIntoChapters_eq_block_iff, splitTextIntoChapters_replicate_a⟩

/-- C3 witness: the empty input satisfies the fallback condition and the
blocking fallback equation, by the amended theorem instantiated there. -/
theorem splitTextIntoChapters_fallback_witness :
    splitTextIntoChapters [] = blockChapters 0 (replaceCrLf []) :=
  (splitTextIntoChapters_fallback.1 []).mpr (Or.inl (by decide))

/-- C3 counterexample: `"Capítulo 1\nHola"` has exactly one heading-regex
match — fewer than two — yet `splitTextIntoChapters` does not use the
blocking fallback on it: it takes the heading walk and returns one titled
chapter. -/
theorem splitTextIntoChapters_one_match_cx :
    countChapterMatches (replaceCrLf (jstr "Capítulo 1\nHola")) = 1 ∧
    splitTextIntoChapters (jstr "Capítulo 1\nHola") ≠
      blockChapters 0 (replaceCrLf (jstr "Capítulo 1\nHola")) ∧
    splitTextIntoChapters (jstr "Capítulo 1\nHola") =
      [⟨0, some (jstr "Capítulo 1"), jstr "Hola"⟩] := by
  refine ⟨by decide, by decide, by decide⟩
